import Mathlib

/-!
Verification development for the path-encoded storage engine of `eslite`
(persistent hierarchical JavaScript objects backed by a SQLite table).

The live module graph of the repository is `src/index.ts → src/proxy.ts →
src/encoding.ts`; the definitions below are shallow embeddings of those
files.  Byte strings are `List Nat` (each entry a byte value), JavaScript
strings are `List Nat` of UTF-16 code units, and SQLite BLOB comparison is
the `byteCmp` order (memcmp, then length).
-/

set_option maxRecDepth 4000

namespace Eslite

/-- Byte strings (SQLite BLOBs, `DataView` contents): lists of byte values. -/
abbrev Bytes := List Nat

/-- SQLite BLOB comparison: memcmp on the common length, then shorter first.
This is the order of the `path` primary-key column. -/
def byteCmp : Bytes → Bytes → Ordering
  | [], [] => .eq
  | [], _ :: _ => .lt
  | _ :: _, [] => .gt
  | a :: as, b :: bs =>
    if a < b then .lt else if b < a then .gt else byteCmp as bs

/-- `path < upper` in the SQL range conditions. -/
def byteLt (a b : Bytes) : Bool :=
  match byteCmp a b with
  | .lt => true
  | _ => false

/-- `path >= lower` in the SQL range conditions. -/
def byteLe (a b : Bytes) : Bool :=
  match byteCmp a b with
  | .gt => false
  | _ => true

/-- A path segment (`src/encoding.ts`, `type Path`): a 32-bit array index or
a record key made of UTF-16 code units. -/
inductive Seg where
  | num (n : Nat)
  | str (u : List Nat)
deriving DecidableEq, Repr

/-- A path from the table root (`src/encoding.ts`, `type Path`). -/
abbrev Path := List Seg

/-- Big-endian bytes of `setUint16` (wraps modulo 2^16 like the `DataView`). -/
def be16 (c : Nat) : Bytes := [c / 256 % 256, c % 256]

/-- Big-endian bytes of `setUint32` (wraps modulo 2^32 like the `DataView`). -/
def be32 (n : Nat) : Bytes :=
  [n / 16777216 % 256, n / 65536 % 256, n / 256 % 256, n % 256]

/-- `encodeString` (`src/encoding.ts`): each code unit as two big-endian
bytes; a code unit `≥ 0xFFFE` raises `RangeError ("Invalid UTF-16 code unit")`,
modelled by `none`. -/
def encodeString (u : List Nat) : Option Bytes :=
  match u with
  | [] => some []
  | c :: rest =>
    if c ≥ 0xFFFE then none
    else (encodeString rest).map (fun bs => c / 256 % 256 :: c % 256 :: bs)

/-- The byte encoding of one path segment (the loop body of `encodePath` in
`src/encoding.ts`): tag `0x00` + 4 value bytes for a number, tag `0x01` +
code-unit bytes + the `0xFFFE` terminator for a string. -/
def encodeSeg : Seg → Option Bytes
  | .num n => some (0 :: be32 n)
  | .str u => (encodeString u).map (fun bs => 1 :: (bs ++ [0xFF, 0xFE]))

/-- `encodePath` (`src/encoding.ts`): concatenation of the per-segment
encodings; `none` models the `RangeError` thrown for an illegal code unit. -/
def encodePath : Path → Option Bytes
  | [] => some []
  | s :: rest =>
    match encodeSeg s, encodePath rest with
    | some b, some r => some (b ++ r)
    | _, _ => none

/-- `increment` (`src/encoding.ts`): on an empty buffer the constant
`ZERO_INCREMENT = [0xFF]`; otherwise a copy whose last byte is incremented,
wrapping modulo 256 because the copy is a `Uint8Array`. -/
def increment : Bytes → Bytes
  | [] => [0xFF]
  | [x] => [(x + 1) % 256]
  | x :: y :: rest => x :: increment (y :: rest)

/-- Legality of a path segment per the data model (§3 of the spec): array
indices are below `2^32 − 1` (the bound enforced by key normalization) and
string keys use code units below `0xFFFE`. -/
def legalSeg : Seg → Bool
  | .num n => n < 0xFFFFFFFF
  | .str u => u.all (· < 0xFFFE)

/-- Legality of a path: all segments legal. -/
def legalPath (p : Path) : Bool := p.all legalSeg

/-- Comparison of natural numbers as an `Ordering` (used to state the
segment order of the spec: numbers sort by value). -/
def natCmp (a b : Nat) : Ordering :=
  if a < b then .lt else if b < a then .gt else .eq

/-- The string order actually induced by the byte encoding: code-unit by
code-unit, with end-of-string treated as the greatest symbol (the `0xFFFE`
terminator is larger than every legal code unit, so a proper prefix of a
string sorts after that string's extensions). -/
def strCmp : List Nat → List Nat → Ordering
  | [], [] => .eq
  | [], _ :: _ => .gt
  | _ :: _, [] => .lt
  | c :: u, d :: v => if c < d then .lt else if d < c then .gt else strCmp u v

/-- The string order the spec claims (plain code-unit lexicographic order,
a proper prefix sorting before its extensions). -/
def strCmpSpec : List Nat → List Nat → Ordering
  | [], [] => .eq
  | [], _ :: _ => .lt
  | _ :: _, [] => .gt
  | c :: u, d :: v => if c < d then .lt else if d < c then .gt else strCmpSpec u v

/-- Segment order induced by the encoding: number segments before string
segments, numbers by value, strings by `strCmp`. -/
def segCmp : Seg → Seg → Ordering
  | .num a, .num b => natCmp a b
  | .num _, .str _ => .lt
  | .str _, .num _ => .gt
  | .str u, .str v => strCmp u v

/-- Path order induced by the encoding: lexicographic on segments (a path
that is a proper segment-prefix of another sorts first). -/
def pathCmp : Path → Path → Ordering
  | [], [] => .eq
  | [], _ :: _ => .lt
  | _ :: _, [] => .gt
  | s :: p, t :: q =>
    match segCmp s t with
    | .eq => pathCmp p q
    | o => o

/-- The raw code-unit bytes of a string (what `encodeString` writes when
every unit is legal). -/
def strBytes : List Nat → Bytes
  | [] => []
  | c :: u => c / 256 % 256 :: c % 256 :: strBytes u

/-- The code-unit reading loop `decodeString` (`src/encoding.ts`): reads
big-endian 16-bit units until one is `≥ 0xFFFE` (the terminator, which is
skipped) or the buffer ends; returns the units and the remaining bytes.
`none` models the `RangeError` of `getUint16` on a single trailing byte. -/
def decodeUnits : Bytes → Option (List Nat × Bytes)
  | [] => some ([], [])
  | [_] => none
  | hi :: lo :: rest =>
    if hi * 256 + lo ≥ 0xFFFE then some ([], rest)
    else
      match decodeUnits rest with
      | none => none
      | some (u, r) => some ((hi * 256 + lo) :: u, r)

/-- The segment-reading loop of `decodePath` (`src/encoding.ts`), with an
explicit fuel (the loop consumes at least one byte per iteration, so
`length + 1` fuel always suffices).  Tag `0x00` reads a 4-byte big-endian
number, tag `0x01` reads code units up to the terminator, any other tag is
the `TypeError ("Unknown data type")`, modelled by `none`; `none` also
models the `RangeError` of an out-of-bounds `getUint32`. -/
def decodeSegs : Nat → Bytes → Option Path
  | 0, _ => none
  | _ + 1, [] => some []
  | fuel + 1, t :: rest =>
    if t = 0 then
      match rest with
      | b0 :: b1 :: b2 :: b3 :: r =>
        (decodeSegs fuel r).map
          (fun p => Seg.num (b0 * 16777216 + b1 * 65536 + b2 * 256 + b3) :: p)
      | _ => none
    else if t = 1 then
      match decodeUnits rest with
      | none => none
      | some (u, r) => (decodeSegs fuel r).map (fun p => Seg.str u :: p)
    else none

/-- `decodePath` (`src/encoding.ts`). -/
def decodePath (b : Bytes) : Option Path := decodeSegs (b.length + 1) b

example : decodePath [0, 0, 0, 0, 7] = some [Seg.num 7] := by decide
example : decodePath [1, 0, 0x61, 0xFF, 0xFE, 0, 0, 0, 0, 2]
    = some [Seg.str [0x61], Seg.num 2] := by decide
example : decodePath [3] = none := by decide

example : encodePath [Seg.num 255] = some [0, 0, 0, 0, 255] := by decide
example : increment [0, 0, 0, 0, 255] = [0, 0, 0, 0, 0] := by decide
example : increment [] = [0xFF] := by decide
example : encodePath [Seg.str [0x61]] = some [1, 0, 0x61, 0xFF, 0xFE] := by decide
example :
    byteLt ((encodePath [Seg.str [0x61, 0x62]]).getD [])
      ((encodePath [Seg.str [0x61]]).getD []) = true := by decide

/-! ### Basic facts about the byte order -/

lemma byteCmp_append_same (x a b : Bytes) :
    byteCmp (x ++ a) (x ++ b) = byteCmp a b := by
  induction x with
  | nil => rfl
  | cons c x ih => simp [byteCmp, ih]

lemma byteCmp_eq_iff (a b : Bytes) : byteCmp a b = .eq ↔ a = b := by
  induction a generalizing b with
  | nil => cases b <;> simp [byteCmp]
  | cons c as ih =>
    cases b with
    | nil => simp [byteCmp]
    | cons d bs =>
      rcases Nat.lt_trichotomy c d with h | h | h
      · have e : byteCmp (c :: as) (d :: bs) = .lt := by simp [byteCmp, h]
        simp only [e, List.cons.injEq]
        constructor
        · intro h2; cases h2
        · rintro ⟨rfl, -⟩; omega
      · subst h
        simp [byteCmp, ih]
      · have e : byteCmp (c :: as) (d :: bs) = .gt := by
          simp [byteCmp, h, Nat.lt_asymm h]
        simp only [e, List.cons.injEq]
        constructor
        · intro h2; cases h2
        · rintro ⟨rfl, -⟩; omega

lemma byteLt_iff (a b : Bytes) : byteLt a b = true ↔ byteCmp a b = .lt := by
  unfold byteLt; cases byteCmp a b <;> simp

lemma byteLt_false_iff (a b : Bytes) : byteLt a b = false ↔ ¬byteCmp a b = .lt := by
  unfold byteLt; cases byteCmp a b <;> simp

lemma byteLe_iff (a b : Bytes) : byteLe a b = true ↔ ¬byteCmp a b = .gt := by
  unfold byteLe; cases byteCmp a b <;> simp

lemma byteCmp_be32 (n1 n2 : Nat) (h1 : n1 < 4294967296) (h2 : n2 < 4294967296)
    (r1 r2 : Bytes) :
    byteCmp (be32 n1 ++ r1) (be32 n2 ++ r2) =
      match natCmp n1 n2 with
      | .eq => byteCmp r1 r2
      | o => o := by
  rcases Nat.lt_trichotomy n1 n2 with h | h | h
  · have e : natCmp n1 n2 = .lt := by simp [natCmp, h]
    rw [e]
    simp only [be32, List.cons_append, List.nil_append, byteCmp]
    split_ifs <;> first | rfl | omega | (exfalso; omega)
  · subst h
    have e : natCmp n1 n1 = .eq := by simp [natCmp]
    rw [e]
    exact byteCmp_append_same _ _ _
  · have e : natCmp n1 n2 = .gt := by simp [natCmp, h, Nat.lt_asymm h]
    rw [e]
    simp only [be32, List.cons_append, List.nil_append, byteCmp]
    split_ifs <;> first | rfl | omega | (exfalso; omega)

lemma byteCmp_strBody : ∀ (u1 u2 : List Nat),
    (∀ c ∈ u1, c < 0xFFFE) → (∀ c ∈ u2, c < 0xFFFE) → ∀ (r1 r2 : Bytes),
    byteCmp (strBytes u1 ++ 0xFF :: 0xFE :: r1) (strBytes u2 ++ 0xFF :: 0xFE :: r2) =
      match strCmp u1 u2 with
      | .eq => byteCmp r1 r2
      | o => o := by
  intro u1
  induction u1 with
  | nil =>
    intro u2 _ h2 r1 r2
    cases u2 with
    | nil => simp [strBytes, strCmp, byteCmp]
    | cons d v =>
      have hd : d < 65534 := h2 d (by simp)
      have e : strCmp [] (d :: v) = .gt := rfl
      rw [e]
      simp only [strBytes, strCmp, List.nil_append, List.cons_append, byteCmp]
      split_ifs <;> first | rfl | omega | (exfalso; omega)
  | cons c u ih =>
    intro u2 h1 h2 r1 r2
    have hc : c < 65534 := h1 c (by simp)
    cases u2 with
    | nil =>
      have e : strCmp (c :: u) [] = .lt := rfl
      rw [e]
      simp only [strBytes, strCmp, List.nil_append, List.cons_append, byteCmp]
      split_ifs <;> first | rfl | omega | (exfalso; omega)
    | cons d v =>
      have hd : d < 65534 := h2 d (by simp)
      rcases Nat.lt_trichotomy c d with h | h | h
      · have e : strCmp (c :: u) (d :: v) = .lt := by simp [strCmp, h]
        rw [e]
        simp only [strBytes, List.cons_append, byteCmp]
        split_ifs <;> first | rfl | omega | (exfalso; omega)
      · subst h
        have e : strCmp (c :: u) (c :: v) = strCmp u v := by simp [strCmp]
        rw [e]
        simp only [strBytes, List.cons_append, byteCmp, lt_self_iff_false,
          if_false]
        exact ih v (fun x hx => h1 x (by simp [hx])) (fun x hx => h2 x (by simp [hx])) r1 r2
      · have e : strCmp (c :: u) (d :: v) = .gt := by
          simp [strCmp, h, Nat.lt_asymm h]
        rw [e]
        simp only [strBytes, List.cons_append, byteCmp]
        split_ifs <;> first | rfl | omega | (exfalso; omega)

lemma encodeString_some : ∀ (u : List Nat) (b : Bytes),
    encodeString u = some b → (∀ c ∈ u, c < 0xFFFE) ∧ b = strBytes u := by
  intro u
  induction u with
  | nil =>
    intro b hb
    simp only [encodeString, Option.some.injEq] at hb
    exact ⟨by simp, by simp [strBytes, ← hb]⟩
  | cons c v ih =>
    intro b hb
    by_cases hc : c ≥ 0xFFFE
    · simp [encodeString, hc] at hb
    · simp only [encodeString, if_neg hc] at hb
      cases hv : encodeString v with
      | none => rw [hv] at hb; simp at hb
      | some bv =>
        rw [hv] at hb
        simp only [Option.map_some'] at hb
        obtain ⟨hall, hbv⟩ := ih bv hv
        constructor
        · intro x hx
          rcases List.mem_cons.1 hx with rfl | hx
          · omega
          · exact hall x hx
        · simp only [Option.some.injEq] at hb
          rw [← hb, hbv, strBytes]

lemma encodeSeg_ne_nil (s : Seg) (b : Bytes) (h : encodeSeg s = some b) :
    b ≠ [] := by
  cases s with
  | num n => simp [encodeSeg] at h; simp [← h, be32]
  | str u =>
    simp only [encodeSeg] at h
    cases hu : encodeString u with
    | none => rw [hu] at h; simp at h
    | some bu => rw [hu] at h; simp at h; simp [← h]

lemma byteCmp_encodeSeg (s t : Seg) (bs bt : Bytes) (r1 r2 : Bytes)
    (hls : legalSeg s = true) (hlt : legalSeg t = true)
    (hs : encodeSeg s = some bs) (ht : encodeSeg t = some bt) :
    byteCmp (bs ++ r1) (bt ++ r2) =
      match segCmp s t with
      | .eq => byteCmp r1 r2
      | o => o := by
  cases s with
  | num a =>
    cases t with
    | num b =>
      simp only [encodeSeg, Option.some.injEq] at hs ht
      subst hs; subst ht
      simp only [legalSeg, decide_eq_true_eq] at hls hlt
      have e : byteCmp ((0 :: be32 a) ++ r1) ((0 :: be32 b) ++ r2)
          = byteCmp (be32 a ++ r1) (be32 b ++ r2) := by
        simp [byteCmp]
      rw [e, byteCmp_be32 a b (by omega) (by omega)]
      rfl
    | str v =>
      simp only [encodeSeg, Option.some.injEq] at hs
      subst hs
      simp only [encodeSeg] at ht
      cases hv : encodeString v with
      | none => rw [hv] at ht; simp at ht
      | some bv =>
        rw [hv] at ht
        simp only [Option.map_some', Option.some.injEq] at ht
        subst ht
        simp [byteCmp, segCmp]
  | str u =>
    cases t with
    | num b =>
      simp only [encodeSeg, Option.some.injEq] at ht
      subst ht
      simp only [encodeSeg] at hs
      cases hu : encodeString u with
      | none => rw [hu] at hs; simp at hs
      | some bu =>
        rw [hu] at hs
        simp only [Option.map_some', Option.some.injEq] at hs
        subst hs
        simp [byteCmp, segCmp]
    | str v =>
      simp only [encodeSeg] at hs ht
      cases hu : encodeString u with
      | none => rw [hu] at hs; simp at hs
      | some bu =>
        cases hv : encodeString v with
        | none => rw [hv] at ht; simp at ht
        | some bv =>
          rw [hu] at hs; rw [hv] at ht
          simp only [Option.map_some', Option.some.injEq] at hs ht
          subst hs; subst ht
          obtain ⟨hu1, hbu⟩ := encodeString_some u bu hu
          obtain ⟨hv1, hbv⟩ := encodeString_some v bv hv
          subst hbu; subst hbv
          have e1 : (1 :: (strBytes u ++ [0xFF, 0xFE])) ++ r1
              = 1 :: (strBytes u ++ 0xFF :: 0xFE :: r1) := by simp
          have e2 : (1 :: (strBytes v ++ [0xFF, 0xFE])) ++ r2
              = 1 :: (strBytes v ++ 0xFF :: 0xFE :: r2) := by simp
          rw [e1, e2]
          have e3 : byteCmp (1 :: (strBytes u ++ 0xFF :: 0xFE :: r1))
              (1 :: (strBytes v ++ 0xFF :: 0xFE :: r2))
              = byteCmp (strBytes u ++ 0xFF :: 0xFE :: r1)
                (strBytes v ++ 0xFF :: 0xFE :: r2) := by
            simp [byteCmp]
          rw [e3, byteCmp_strBody u v hu1 hv1 r1 r2]
          rfl

theorem byteCmp_encodePath : ∀ (p q : Path) (a b : Bytes),
    legalPath p = true → legalPath q = true →
    encodePath p = some a → encodePath q = some b →
    byteCmp a b = pathCmp p q := by
  intro p
  induction p with
  | nil =>
    intro q a b _ hlq ha hb
    simp only [encodePath, Option.some.injEq] at ha
    subst ha
    cases q with
    | nil =>
      simp only [encodePath, Option.some.injEq] at hb
      subst hb; rfl
    | cons t q' =>
      simp only [encodePath] at hb
      cases hts : encodeSeg t with
      | none => rw [hts] at hb; simp at hb
      | some bt =>
        cases hq : encodePath q' with
        | none => rw [hts, hq] at hb; simp at hb
        | some r =>
          rw [hts, hq] at hb
          simp only [Option.some.injEq] at hb
          subst hb
          have hne := encodeSeg_ne_nil t bt hts
          cases bt with
          | nil => exact absurd rfl hne
          | cons x xs => rfl
  | cons s p' ih =>
    intro q a b hlp hlq ha hb
    simp only [legalPath, List.all_cons, Bool.and_eq_true] at hlp
    simp only [encodePath] at ha
    cases hss : encodeSeg s with
    | none => rw [hss] at ha; simp at ha
    | some bs =>
      cases hp : encodePath p' with
      | none => rw [hss, hp] at ha; simp at ha
      | some ra =>
        rw [hss, hp] at ha
        simp only [Option.some.injEq] at ha
        subst ha
        cases q with
        | nil =>
          simp only [encodePath, Option.some.injEq] at hb
          subst hb
          have hne := encodeSeg_ne_nil s bs hss
          cases bs with
          | nil => exact absurd rfl hne
          | cons x xs => rfl
        | cons t q' =>
          simp only [legalPath, List.all_cons, Bool.and_eq_true] at hlq
          simp only [encodePath] at hb
          cases hts : encodeSeg t with
          | none => rw [hts] at hb; simp at hb
          | some bt =>
            cases hq : encodePath q' with
            | none => rw [hts, hq] at hb; simp at hb
            | some rb =>
              rw [hts, hq] at hb
              simp only [Option.some.injEq] at hb
              subst hb
              rw [byteCmp_encodeSeg s t bs bt ra rb hlp.1 hlq.1 hss hts]
              rw [ih q' ra rb hlp.2 hlq.2 hp hq]
              cases hst : segCmp s t <;> simp [pathCmp, hst]

/-! ### Decode/encode round trip -/

lemma encodePath_append : ∀ (p q : Path) (a b : Bytes),
    encodePath p = some a → encodePath q = some b →
    encodePath (p ++ q) = some (a ++ b) := by
  intro p
  induction p with
  | nil =>
    intro q a b ha hb
    simp only [encodePath, Option.some.injEq] at ha
    simp [← ha, hb]
  | cons s p' ih =>
    intro q a b ha hb
    simp only [encodePath] at ha
    cases hss : encodeSeg s with
    | none => rw [hss] at ha; simp at ha
    | some bs =>
      cases hp : encodePath p' with
      | none => rw [hss, hp] at ha; simp at ha
      | some ra =>
        rw [hss, hp] at ha
        simp only [Option.some.injEq] at ha
        have hiq := ih q ra b hp hb
        rw [List.cons_append]
        simp only [encodePath, List.append_eq]
        rw [hss, hiq, ← ha, List.append_assoc]

lemma decodeUnits_strBytes : ∀ (u : List Nat), (∀ c ∈ u, c < 0xFFFE) →
    ∀ (r : Bytes), decodeUnits (strBytes u ++ 0xFF :: 0xFE :: r) = some (u, r) := by
  intro u
  induction u with
  | nil =>
    intro _ r
    simp [strBytes, decodeUnits]
  | cons c v ih =>
    intro h r
    have hc : c < 65534 := h c (by simp)
    have e : strBytes (c :: v) ++ 0xFF :: 0xFE :: r
        = c / 256 % 256 :: c % 256 :: (strBytes v ++ 0xFF :: 0xFE :: r) := by
      simp [strBytes]
    rw [e]
    have hval : c / 256 % 256 * 256 + c % 256 = c := by omega
    simp only [decodeUnits, hval]
    rw [if_neg (by omega)]
    rw [ih (fun x hx => h x (by simp [hx])) r]

lemma decodeSegs_num_step (k n : Nat) (hn : n < 4294967296) (rest : Bytes) :
    decodeSegs (k + 1) (0 :: (be32 n ++ rest)) =
      (decodeSegs k rest).map (fun p => Seg.num n :: p) := by
  have hval : n / 16777216 % 256 * 16777216 + n / 65536 % 256 * 65536
      + n / 256 % 256 * 256 + n % 256 = n := by omega
  simp [decodeSegs, be32, hval]

lemma decodeSegs_str_step (k : Nat) (u : List Nat) (h : ∀ c ∈ u, c < 0xFFFE)
    (rest : Bytes) :
    decodeSegs (k + 1) (1 :: (strBytes u ++ 0xFF :: 0xFE :: rest)) =
      (decodeSegs k rest).map (fun p => Seg.str u :: p) := by
  simp [decodeSegs, decodeUnits_strBytes u h rest]

lemma decodeSegs_encodePath : ∀ (p : Path) (b : Bytes),
    legalPath p = true → encodePath p = some b →
    ∀ (fuel : Nat) (r : Bytes) (q : Path), decodeSegs fuel r = some q →
    decodeSegs (p.length + fuel) (b ++ r) = some (p ++ q) := by
  intro p
  induction p with
  | nil =>
    intro b _ hb fuel r q hr
    simp only [encodePath, Option.some.injEq] at hb
    simp [← hb, hr]
  | cons s p' ih =>
    intro b hl hb fuel r q hr
    simp only [legalPath, List.all_cons, Bool.and_eq_true] at hl
    simp only [encodePath] at hb
    cases hss : encodeSeg s with
    | none => rw [hss] at hb; simp at hb
    | some bs =>
      cases hp : encodePath p' with
      | none => rw [hss, hp] at hb; simp at hb
      | some rb =>
        rw [hss, hp] at hb
        simp only [Option.some.injEq] at hb
        subst hb
        have ihp := ih rb hl.2 hp fuel r q hr
        have e2 : (s :: p').length + fuel = (p'.length + fuel) + 1 := by
          simp [List.length_cons]; omega
        rw [e2]
        cases s with
        | num n =>
          simp only [encodeSeg, Option.some.injEq] at hss
          subst hss
          have hn : n < 4294967295 := by
            have := hl.1; simp [legalSeg] at this; exact this
          have e : ((0 :: be32 n) ++ rb) ++ r = 0 :: (be32 n ++ (rb ++ r)) := by
            simp
          rw [e, decodeSegs_num_step _ n (by omega) _, ihp]
          rfl
        | str u =>
          simp only [encodeSeg] at hss
          cases hu : encodeString u with
          | none => rw [hu] at hss; simp at hss
          | some bu =>
            rw [hu] at hss
            simp only [Option.map_some', Option.some.injEq] at hss
            subst hss
            obtain ⟨hall, hbu⟩ := encodeString_some u bu hu
            subst hbu
            have e : ((1 :: (strBytes u ++ [0xFF, 0xFE])) ++ rb) ++ r
                = 1 :: (strBytes u ++ 0xFF :: 0xFE :: (rb ++ r)) := by
              simp
            rw [e, decodeSegs_str_step _ u hall _, ihp]
            rfl

lemma encodePath_length_le : ∀ (p : Path) (b : Bytes),
    encodePath p = some b → p.length ≤ b.length := by
  intro p
  induction p with
  | nil => intro b hb; simp [encodePath] at hb; simp [← hb]
  | cons s p' ih =>
    intro b hb
    simp only [encodePath] at hb
    cases hss : encodeSeg s with
    | none => rw [hss] at hb; simp at hb
    | some bs =>
      cases hp : encodePath p' with
      | none => rw [hss, hp] at hb; simp at hb
      | some rb =>
        rw [hss, hp] at hb
        simp only [Option.some.injEq] at hb
        subst hb
        have h1 := ih rb hp
        have h2 : bs ≠ [] := encodeSeg_ne_nil s bs hss
        have h3 : 1 ≤ bs.length := by
          cases bs with
          | nil => exact absurd rfl h2
          | cons x xs => simp
        simp only [List.length_cons, List.length_append]
        omega

/-- Decoding inverts encoding on legal paths. -/
theorem decode_encode (p : Path) (b : Bytes) (hl : legalPath p = true)
    (hb : encodePath p = some b) : decodePath b = some p := by
  have h3 := encodePath_length_le p b hb
  have h1 : decodeSegs (b.length - p.length + 1) ([] : Bytes) = some [] := by
    simp [decodeSegs]
  have h2 := decodeSegs_encodePath p b hl hb (b.length - p.length + 1) [] [] h1
  simp only [List.append_nil] at h2
  have e : p.length + (b.length - p.length + 1) = b.length + 1 := by omega
  rw [e] at h2
  exact h2

/-! ### Complex markers (`COMPLEX_TAGS`, `datatype`, `encodeComplex`) -/

/-- `ComplexType` (`src/encoding.ts`). -/
inductive ComplexType where
  | record
  | array
deriving DecidableEq, Repr

/-- `COMPLEX_TAGS.RECORD = 0xff - 1` (`src/encoding.ts`). -/
def RECORD_TAG : Nat := 0xFF - 1

/-- `COMPLEX_TAGS.ARRAY = 0xff - 2` (`src/encoding.ts`). -/
def ARRAY_TAG : Nat := 0xFF - 2

/-- `encodeComplex` (`src/encoding.ts`). -/
def encodeComplex (t : ComplexType) : Bytes :=
  [if t = ComplexType.array then ARRAY_TAG else RECORD_TAG]

/-- The classification a reader gives a stored value buffer. -/
inductive DataKind where
  | record
  | array
  | scalar
deriving DecidableEq, Repr

/-- `datatype` (`src/encoding.ts`): classify a stored value by its first
byte; `none` models the `RangeError` of `getUint8` on an empty buffer. -/
def datatype : Bytes → Option DataKind
  | [] => none
  | t :: _ =>
    some (if t = RECORD_TAG then .record
      else if t = ARRAY_TAG then .array
      else .scalar)

/-! ### Small helper facts -/

lemma byteCmp_nil_not_gt (b : Bytes) : byteCmp [] b ≠ .gt := by
  cases b <;> simp [byteCmp]

lemma encodePath_head (p : Path) (b : Bytes) (h : encodePath p = some b) :
    b = [] ∨ (∃ r, b = 0 :: r) ∨ (∃ r, b = 1 :: r) := by
  cases p with
  | nil =>
    simp only [encodePath, Option.some.injEq] at h
    left; exact h.symm
  | cons s p' =>
    simp only [encodePath] at h
    cases hss : encodeSeg s with
    | none => rw [hss] at h; simp at h
    | some bs =>
      cases hp : encodePath p' with
      | none => rw [hss, hp] at h; simp at h
      | some r =>
        rw [hss, hp] at h
        simp only [Option.some.injEq] at h
        cases s with
        | num n =>
          simp only [encodeSeg, Option.some.injEq] at hss
          right; left
          exact ⟨be32 n ++ r, by rw [← h, ← hss]; rfl⟩
        | str u =>
          simp only [encodeSeg] at hss
          cases hu : encodeString u with
          | none => rw [hu] at hss; simp at hss
          | some bu =>
            rw [hu] at hss
            simp only [Option.map_some', Option.some.injEq] at hss
            right; right
            exact ⟨(bu ++ [0xFF, 0xFE]) ++ r, by rw [← h, ← hss]; rfl⟩

/-! ### Claims C1, C2, C6, C7 -/

/-- C1 (code bug): the claim says that for every byte string `b` that
path-encodes a non-empty path prefix, `increment b` is strictly greater
than `b` and every encoded extension of the prefix lies in
`[b, increment b)`, because "no legal encoded path ends in a byte that
could absorb the increment".  This is false: a number segment ends in the
low byte of its 32-bit value, so the encoding of path `[255]` ends in
`0xFF`; `increment` wraps that byte to `0x00`, producing a byte string
*smaller* than the input, and the claimed range is empty — the encoded
extension `[255, 0]` lies above it.  Consequently overwriting or deleting
index 255 of an array misses the existing subtree rows. -/
theorem c1_increment_wraps_on_index_255 :
    encodePath [Seg.num 255] = some [0, 0, 0, 0, 255]
    ∧ legalPath [Seg.num 255] = true
    ∧ increment [0, 0, 0, 0, 255] = [0, 0, 0, 0, 0]
    ∧ byteLt [0, 0, 0, 0, 255] (increment [0, 0, 0, 0, 255]) = false
    ∧ encodePath [Seg.num 255, Seg.num 0]
        = some [0, 0, 0, 0, 255, 0, 0, 0, 0, 0]
    ∧ (byteLe [0, 0, 0, 0, 255] [0, 0, 0, 0, 255, 0, 0, 0, 0, 0] = true
        ∧ byteLt [0, 0, 0, 0, 255, 0, 0, 0, 0, 0]
            (increment [0, 0, 0, 0, 255]) = false) := by
  decide

/-- C2 counterexample: the claim says strings sort by their code-unit
sequence, with the path for segment `"a"` preceding the path for `"ab"`.
On the code the opposite holds: the `0xFFFE` terminator bytes of `"a"`
compare *greater* than the unit bytes of `"ab"`'s second unit, so
`encodePath ["ab"] < encodePath ["a"]` in the byte order even though
`"a" < "ab"` in plain code-unit lexicographic order (`strCmpSpec`). -/
theorem c2_counterexample :
    encodePath [Seg.str [0x61]] = some [1, 0, 0x61, 0xFF, 0xFE]
    ∧ encodePath [Seg.str [0x61, 0x62]]
        = some [1, 0, 0x61, 0, 0x62, 0xFF, 0xFE]
    ∧ strCmpSpec [0x61] [0x61, 0x62] = .lt
    ∧ byteLt [1, 0, 0x61, 0xFF, 0xFE] [1, 0, 0x61, 0, 0x62, 0xFF, 0xFE] = false
    ∧ byteLt [1, 0, 0x61, 0, 0x62, 0xFF, 0xFE] [1, 0, 0x61, 0xFF, 0xFE] = true := by
  decide

/-- C2 (amended): for legal paths the byte order of the encodings is
exactly the segment order `pathCmp` in which number segments sort before
string segments, numbers sort by value, and strings sort code-unit by
code-unit *with end-of-string greatest* (`strCmp`): a string that is a
proper prefix of another sorts after that string's extensions, so the
encoding of `"ab"` precedes the encoding of `"a"`. -/
theorem c2_path_order (p q : Path) (a b : Bytes)
    (hp : legalPath p = true) (hq : legalPath q = true)
    (ha : encodePath p = some a) (hb : encodePath q = some b) :
    byteLt a b = true ↔ pathCmp p q = .lt := by
  simp only [byteLt, byteCmp_encodePath p q a b hp hq ha hb]
  cases pathCmp p q <;> decide

/-- Witness for `c2_path_order` at the concrete paths `[3]` and `["a"]`. -/
theorem c2_path_order_witness :
    byteLt [0, 0, 0, 0, 3] [1, 0, 0x61, 0xFF, 0xFE] = true :=
  (c2_path_order [Seg.num 3] [Seg.str [0x61]] [0, 0, 0, 0, 3]
    [1, 0, 0x61, 0xFF, 0xFE] (by decide) (by decide) (by decide)
    (by decide)).mpr (by decide)

/-- C6 counterexample: `increment` of the empty buffer is the constant
`ZERO_INCREMENT = [0xFF]` in `src/encoding.ts`, not `[0x01]`. -/
theorem c6_counterexample : ¬ increment [] = [0x01] := by decide

/-- C6 (amended): `increment` of the empty buffer returns the single-byte
buffer `0xFF`, so the range for the empty table-root prefix is
`[empty, 0xFF)`; every encoded path (starting with tag byte `0x00` or
`0x01`) lies inside that range. -/
theorem c6_increment_empty :
    increment [] = [0xFF]
    ∧ ∀ (p : Path) (b : Bytes), encodePath p = some b →
        byteLe [] b = true ∧ byteLt b [0xFF] = true := by
  refine ⟨by decide, ?_⟩
  intro p b h
  constructor
  · rw [byteLe_iff]
    exact byteCmp_nil_not_gt b
  · rcases encodePath_head p b h with rfl | ⟨r, rfl⟩ | ⟨r, rfl⟩
    · decide
    · rfl
    · rfl

/-- Witness for `c6_increment_empty` at the concrete path `[0]`. -/
theorem c6_increment_empty_witness :
    byteLe [] [0, 0, 0, 0, 0] = true ∧ byteLt [0, 0, 0, 0, 0] [0xFF] = true :=
  c6_increment_empty.2 [Seg.num 0] [0, 0, 0, 0, 0] (by decide)

/-- C7 counterexample: in `src/encoding.ts` the stored markers are
`RECORD = 0xFE` and `ARRAY = 0xFD`, not record `0xFF` / array `0xFE` as the
claim states; a buffer starting `0xFE` is classified as a record, not an
array. -/
theorem c7_counterexample :
    ¬ (encodeComplex .array = [0xFE] ∧ encodeComplex .record = [0xFF]) := by
  decide

/-- C7 (amended): the single-byte marker stored for a composite is `0xFD`
for an array and `0xFE` for a record, and `datatype` classifies a stored
value by exactly these first bytes (anything else is a scalar). -/
theorem c7_markers :
    encodeComplex .array = [0xFD]
    ∧ encodeComplex .record = [0xFE]
    ∧ (∀ rest : Bytes, datatype (0xFE :: rest) = some .record)
    ∧ (∀ rest : Bytes, datatype (0xFD :: rest) = some .array)
    ∧ (∀ (t : Nat) (rest : Bytes), t ≠ 0xFD → t ≠ 0xFE →
        datatype (t :: rest) = some .scalar) := by
  refine ⟨by decide, by decide, ?_, ?_, ?_⟩
  · intro rest; rfl
  · intro rest; rfl
  · intro t rest h1 h2
    simp only [datatype, RECORD_TAG, ARRAY_TAG]
    rw [if_neg (by omega), if_neg (by omega)]

/-- Witness for `c7_markers` at marker byte `0xFE` and scalar tag `7`. -/
theorem c7_markers_witness :
    datatype [0xFE] = some .record ∧ datatype [7] = some .scalar :=
  ⟨c7_markers.2.2.1 [], c7_markers.2.2.2.2 7 [] (by decide) (by decide)⟩

/-! ### More order facts, used for the SQL `ORDER BY path DESC LIMIT 1` -/

lemma byteCmp_swap : ∀ (a b : Bytes), (byteCmp a b).swap = byteCmp b a := by
  intro a
  induction a with
  | nil => intro b; cases b <;> rfl
  | cons x as ih =>
    intro b
    cases b with
    | nil => rfl
    | cons y bs =>
      simp only [byteCmp]
      rcases Nat.lt_trichotomy x y with h | h | h
      · rw [if_pos h, if_neg (by omega), if_pos h]; rfl
      · subst h
        rw [if_neg (by omega), if_neg (by omega), if_neg (by omega),
          if_neg (by omega)]
        exact ih bs
      · rw [if_neg (by omega), if_pos h, if_pos h]; rfl

lemma byteCmp_lt_trans : ∀ (a b c : Bytes),
    byteCmp a b = .lt → byteCmp b c = .lt → byteCmp a c = .lt := by
  intro a
  induction a with
  | nil =>
    intro b c h1 h2
    cases b with
    | nil => simp [byteCmp] at h1
    | cons y bs =>
      cases c with
      | nil => simp [byteCmp] at h2
      | cons z cs => rfl
  | cons x as ih =>
    intro b c h1 h2
    cases b with
    | nil => simp [byteCmp] at h1
    | cons y bs =>
      cases c with
      | nil => simp [byteCmp] at h2
      | cons z cs =>
        simp only [byteCmp] at h1 h2 ⊢
        by_cases hxy : x < y
        · by_cases hyz : y < z
          · rw [if_pos (by omega)]
          · by_cases hzy : z < y
            · rw [if_neg hyz, if_pos hzy] at h2; cases h2
            · have : y = z := by omega
              subst this
              rw [if_pos hxy]
        · by_cases hyx : y < x
          · rw [if_neg hxy, if_pos hyx] at h1; cases h1
          · have : x = y := by omega
            subst this
            rw [if_neg hxy, if_neg hyx] at h1
            by_cases hyz : x < z
            · rw [if_pos hyz]
            · by_cases hzy : z < x
              · rw [if_neg hyz, if_pos hzy] at h2; cases h2
              · have : x = z := by omega
                subst this
                rw [if_neg hyz, if_neg hzy] at h2 ⊢
                exact ih bs cs h1 h2

lemma byteLt_irrefl (a : Bytes) : byteLt a a = false := by
  have h : byteCmp a a = .eq := (byteCmp_eq_iff a a).2 rfl
  simp [byteLt, h]

lemma byteLt_trans {a b c : Bytes} (h1 : byteLt a b = true)
    (h2 : byteLt b c = true) : byteLt a c = true := by
  rw [byteLt_iff] at *
  exact byteCmp_lt_trans a b c h1 h2

lemma byteEq_of_not_lt {a b : Bytes} (h1 : byteLt a b = false)
    (h2 : byteLt b a = false) : a = b := by
  rw [byteLt_false_iff] at h1 h2
  cases hc : byteCmp a b with
  | eq => exact (byteCmp_eq_iff a b).1 hc
  | lt => exact absurd hc h1
  | gt =>
    have h3 := byteCmp_swap a b
    rw [hc] at h3
    exact absurd h3.symm h2

/-! ### The `length` prepared statement (`maxNumericChild`) -/

/-- A SQLite table's rows: `(path, value)` BLOB pairs. -/
abbrev Store := List (Bytes × Bytes)

/-- Whether a row with the given path exists (the primary-key lookup). -/
def rowExists (s : Store) (p : Bytes) : Bool := s.any (fun r => r.1 == p)

/-- The `WHERE` filter of the `length` statement (`src/proxy.ts`):
`LENGTH(path) == LENGTH(:lower) AND path >= :lower AND path < :upper`. -/
def selectsLen (lo hi p : Bytes) : Bool :=
  p.length == lo.length && byteLe lo p && byteLt p hi

/-- `ORDER BY path DESC LIMIT 1` over a list of paths: the byte-greatest
element, `none` when the list is empty. -/
def maxRow (l : List Bytes) : Option Bytes :=
  l.foldl
    (fun acc p =>
      match acc with
      | none => some p
      | some m => some (if byteLt m p then p else m))
    none

lemma maxRow_go : ∀ (l : List Bytes) (acc : Option Bytes) (m : Bytes),
    l.foldl
      (fun acc p =>
        match acc with
        | none => some p
        | some m => some (if byteLt m p then p else m))
      acc = some m →
    (acc = some m ∨ m ∈ l) ∧ (∀ p ∈ l, byteLt m p = false) ∧
      (∀ a, acc = some a → byteLt m a = false) := by
  intro l
  induction l with
  | nil =>
    intro acc m h
    simp only [List.foldl_nil] at h
    refine ⟨Or.inl h, by simp, ?_⟩
    intro a ha
    rw [h] at ha
    simp only [Option.some.injEq] at ha
    rw [← ha]
    exact byteLt_irrefl m
  | cons p l' ih =>
    intro acc m h
    simp only [List.foldl_cons] at h
    obtain ⟨hmem, hub, hacc⟩ := ih _ m h
    have hmp : byteLt m p = false := by
      cases acc with
      | none =>
        exact hacc p rfl
      | some x =>
        have h2 := hacc (if byteLt x p then p else x) rfl
        by_cases hb : byteLt x p = true
        · rw [if_pos hb] at h2; exact h2
        · rw [if_neg hb] at h2
          have hxp : byteLt x p = false := by
            cases hxx : byteLt x p with
            | false => rfl
            | true => exact absurd hxx hb
          by_cases hmpb : byteLt m p = true
          · exfalso
            cases hpx : byteLt p x with
            | true =>
              have h3 := byteLt_trans hmpb hpx
              rw [h3] at h2; cases h2
            | false =>
              have hpe : p = x := byteEq_of_not_lt hpx hxp
              rw [← hpe] at h2
              rw [hmpb] at h2; cases h2
          · cases hx : byteLt m p with
            | false => rfl
            | true => exact absurd hx hmpb
    refine ⟨?_, ?_, ?_⟩
    · cases acc with
      | none =>
        rcases hmem with h1 | h1
        · simp only [Option.some.injEq] at h1
          right; rw [← h1]; exact List.mem_cons_self p l'
        · right; exact List.mem_cons_of_mem p h1
      | some x =>
        rcases hmem with h1 | h1
        · simp only [Option.some.injEq] at h1
          by_cases hb : byteLt x p = true
          · rw [if_pos hb] at h1
            right; rw [← h1]; exact List.mem_cons_self p l'
          · rw [if_neg hb] at h1
            left; rw [h1]
        · right; exact List.mem_cons_of_mem p h1
    · intro z hz
      rcases List.mem_cons.1 hz with rfl | hz'
      · exact hmp
      · exact hub z hz'
    · intro a ha
      cases acc with
      | none => exact Option.noConfusion ha
      | some x =>
        simp only [Option.some.injEq] at ha
        subst ha
        have h2 := hacc (if byteLt x p then p else x) rfl
        by_cases hb : byteLt x p = true
        · rw [if_pos hb] at h2
          cases hx : byteLt m x with
          | false => rfl
          | true =>
            exfalso
            have h3 := byteLt_trans hx hb
            rw [h2] at h3
            cases h3
        · rw [if_neg hb] at h2
          exact h2

lemma maxRow_spec (l : List Bytes) (m : Bytes) (h : maxRow l = some m) :
    m ∈ l ∧ ∀ p ∈ l, byteLt m p = false := by
  obtain ⟨hmem, hub, -⟩ := maxRow_go l none m h
  rcases hmem with h1 | h1
  · cases h1
  · exact ⟨h1, hub⟩

lemma maxRow_ne_none (l : List Bytes) (z : Bytes) (hz : z ∈ l) :
    maxRow l ≠ none := by
  intro h
  unfold maxRow at h
  induction l generalizing z with
  | nil => cases hz
  | cons p l' ih =>
    simp only [List.foldl_cons] at h
    have : ∀ (acc : Bytes) (l'' : List Bytes),
        l''.foldl
          (fun acc p =>
            match acc with
            | none => some p
            | some m => some (if byteLt m p then p else m))
          (some acc) ≠ none := by
      intro acc l''
      induction l'' generalizing acc with
      | nil => simp
      | cons q l3 ih3 =>
        simp only [List.foldl_cons]
        exact ih3 _
    exact this p l' h

lemma decodeSegs_append : ∀ (p : Path) (b : Bytes),
    legalPath p = true → encodePath p = some b →
    ∀ (fuel : Nat) (r : Bytes),
    decodeSegs (p.length + fuel) (b ++ r) =
      (decodeSegs fuel r).map (fun q => p ++ q) := by
  intro p
  induction p with
  | nil =>
    intro b _ hb fuel r
    simp only [encodePath, Option.some.injEq] at hb
    rw [← hb]
    simp only [List.nil_append, List.length_nil, Nat.zero_add]
    cases decodeSegs fuel r <;> simp
  | cons s p' ih =>
    intro b hl hb fuel r
    simp only [legalPath, List.all_cons, Bool.and_eq_true] at hl
    simp only [encodePath] at hb
    cases hss : encodeSeg s with
    | none => rw [hss] at hb; simp at hb
    | some bs =>
      cases hp : encodePath p' with
      | none => rw [hss, hp] at hb; simp at hb
      | some rb =>
        rw [hss, hp] at hb
        simp only [Option.some.injEq] at hb
        subst hb
        have e2 : (s :: p').length + fuel = (p'.length + fuel) + 1 := by
          simp [List.length_cons]; omega
        rw [e2]
        cases s with
        | num n =>
          simp only [encodeSeg, Option.some.injEq] at hss
          subst hss
          have hn : n < 4294967295 := by
            have h1 := hl.1; simp [legalSeg] at h1; exact h1
          have e : ((0 :: be32 n) ++ rb) ++ r = 0 :: (be32 n ++ (rb ++ r)) := by
            simp
          rw [e, decodeSegs_num_step _ n (by omega) _, ih rb hl.2 hp fuel r]
          cases decodeSegs fuel r <;> simp
        | str u =>
          simp only [encodeSeg] at hss
          cases hu : encodeString u with
          | none => rw [hu] at hss; simp at hss
          | some bu =>
            rw [hu] at hss
            simp only [Option.map_some', Option.some.injEq] at hss
            subst hss
            obtain ⟨hall, hbu⟩ := encodeString_some u bu hu
            subst hbu
            have e : ((1 :: (strBytes u ++ [0xFF, 0xFE])) ++ rb) ++ r
                = 1 :: (strBytes u ++ 0xFF :: 0xFE :: (rb ++ r)) := by
              simp
            rw [e, decodeSegs_str_step _ u hall _, ih rb hl.2 hp fuel r]
            cases decodeSegs fuel r <;> simp

lemma encodeString_legal : ∀ (u : List Nat), (∀ c ∈ u, c < 0xFFFE) →
    encodeString u = some (strBytes u) := by
  intro u
  induction u with
  | nil => intro _; rfl
  | cons c v ih =>
    intro h
    have hc : c < 65534 := h c (by simp)
    simp only [encodeString, if_neg (by omega : ¬c ≥ 65534)]
    rw [ih (fun x hx => h x (by simp [hx]))]
    rfl

lemma encodePath_some_of_legal : ∀ (p : Path), legalPath p = true →
    ∃ b, encodePath p = some b := by
  intro p
  induction p with
  | nil => intro _; exact ⟨[], rfl⟩
  | cons s p' ih =>
    intro hl
    simp only [legalPath, List.all_cons, Bool.and_eq_true] at hl
    obtain ⟨rb, hrb⟩ := ih hl.2
    cases s with
    | num n => exact ⟨(0 :: be32 n) ++ rb, by simp [encodePath, encodeSeg, hrb]⟩
    | str u =>
      have hall : ∀ c ∈ u, c < 65534 := by
        have h1 := hl.1
        simp only [legalSeg, List.all_eq_true, decide_eq_true_eq] at h1
        exact h1
      refine ⟨(1 :: (strBytes u ++ [0xFF, 0xFE])) ++ rb, ?_⟩
      simp [encodePath, encodeSeg, encodeString_legal u hall, hrb]

lemma byte_between_split : ∀ (x a b z : Bytes),
    byteCmp (x ++ a) z ≠ .gt → byteCmp z (x ++ b) = .lt →
    z.length = x.length + a.length →
    ∃ r, z = x ++ r ∧ r.length = a.length := by
  intro x
  induction x with
  | nil =>
    intro a b z _ _ hlen
    exact ⟨z, by simp, by simpa using hlen⟩
  | cons c x' ih =>
    intro a b z h1 h2 hlen
    cases z with
    | nil => simp at hlen; omega
    | cons d z' =>
      rcases Nat.lt_trichotomy c d with h | h | h
      · exfalso
        have : byteCmp (d :: z') ((c :: x') ++ b) = .gt := by
          simp only [List.cons_append, byteCmp]
          rw [if_neg (by omega), if_pos h]
        rw [h2] at this
        cases this
      · subst h
        have h1' : byteCmp (x' ++ a) z' ≠ .gt := by
          intro hgt
          apply h1
          simp only [List.cons_append, byteCmp]
          rw [if_neg (by omega), if_neg (by omega)]
          exact hgt
        have h2' : byteCmp z' (x' ++ b) = .lt := by
          simp only [List.cons_append, byteCmp] at h2
          rw [if_neg (by omega), if_neg (by omega)] at h2
          exact h2
        obtain ⟨r, hr, hrl⟩ := ih a b z' h1' h2' (by simp at hlen; omega)
        exact ⟨r, by simp [hr], hrl⟩
      · exfalso
        apply h1
        simp only [List.cons_append, byteCmp]
        rw [if_neg (by omega), if_pos h]

/-! ### Array length (`getOwnPropertyDescriptor` length branch, `src/proxy.ts`) -/

/-- The `length` prepared statement: among rows whose path has the same
byte length as `:lower` and lies in `[:lower, :upper)`, the byte-greatest
path (`ORDER BY path DESC LIMIT 1`), or `none` if there is no such row. -/
def lengthQuery (store : Store) (lo hi : Bytes) : Option Bytes :=
  maxRow ((store.map Prod.fst).filter (selectsLen lo hi))

/-- The array-`length` computation of `getOwnPropertyDescriptor`
(`src/proxy.ts`): run the `length` statement with
`lower = encodePath(prefix ++ [0])`, `upper = encodePath(prefix ++ [0xFFFFFFFF])`;
if no row, the length is `0`; otherwise decode the found path and return
its last segment plus one.  `none` models the type confusion that would
occur if the decoded last segment were not a number (`decoded.at(-1) as
number`), and decode errors. -/
def arrayLength (store : Store) (pfx : Path) : Option Nat :=
  match encodePath (pfx ++ [Seg.num 0]),
      encodePath (pfx ++ [Seg.num 0xFFFFFFFF]) with
  | some lo, some hi =>
    match lengthQuery store lo hi with
    | none => some 0
    | some pm =>
      match decodePath pm with
      | some q =>
        match q.getLast? with
        | some (Seg.num n) => some (n + 1)
        | _ => none
      | none => none
  | _, _ => none

lemma encodePath_num_child (P : Path) (bP : Bytes) (hb : encodePath P = some bP)
    (i : Nat) : encodePath (P ++ [Seg.num i]) = some (bP ++ (0 :: be32 i)) := by
  have h1 : encodePath [Seg.num i] = some (0 :: be32 i) := rfl
  exact encodePath_append P [Seg.num i] bP (0 :: be32 i) hb h1

lemma decodeSegs_single_num (g c0 c1 c2 c3 : Nat) :
    decodeSegs (g + 2) [0, c0, c1, c2, c3] =
      some [Seg.num (c0 * 16777216 + c1 * 65536 + c2 * 256 + c3)] := by
  simp [decodeSegs]

lemma byteCmp_num_children (bP : Bytes) (i j : Nat) (hi : i < 4294967296)
    (hj : j < 4294967296) :
    byteCmp (bP ++ (0 :: be32 i)) (bP ++ (0 :: be32 j)) =
      match natCmp i j with
      | .eq => .eq
      | o => o := by
  rw [byteCmp_append_same]
  have e : byteCmp (0 :: be32 i) (0 :: be32 j) = byteCmp (be32 i) (be32 j) := by
    simp [byteCmp]
  rw [e]
  have e2 : byteCmp (be32 i) (be32 j)
      = byteCmp (be32 i ++ ([] : Bytes)) (be32 j ++ ([] : Bytes)) := by
    simp
  rw [e2, byteCmp_be32 i j hi hj]
  cases natCmp i j <;> rfl

lemma legalPath_append_num (P : Path) (hP : legalPath P = true) (i : Nat)
    (hi : i < 4294967295) : legalPath (P ++ [Seg.num i]) = true := by
  simp only [legalPath] at hP ⊢
  rw [List.all_append, hP]
  simp [legalSeg]
  omega

/-- The characterization of rows selected by the `length` statement over a
store whose rows are encodings of legal paths: a selected row is exactly a
direct numeric child of the prefix. -/
lemma lengthQuery_selected (store : Store) (P : Path) (bP : Bytes)
    (hP : legalPath P = true) (hbP : encodePath P = some bP)
    (hq : ∀ r ∈ store, ∃ q, legalPath q = true ∧ encodePath q = some r.1)
    (z : Bytes) (hz : z ∈ store.map Prod.fst)
    (hsel : selectsLen (bP ++ (0 :: be32 0)) (bP ++ (0 :: be32 4294967295)) z
      = true) :
    ∃ i, i < 4294967295 ∧ encodePath (P ++ [Seg.num i]) = some z ∧
      rowExists store z = true := by
  obtain ⟨row, hrow, hfst⟩ := List.mem_map.1 hz
  obtain ⟨q, hql, hqe⟩ := hq row hrow
  rw [hfst] at hqe
  simp only [selectsLen, Bool.and_eq_true, beq_iff_eq] at hsel
  obtain ⟨⟨hlen, hge⟩, hlt⟩ := hsel
  rw [byteLe_iff] at hge
  rw [byteLt_iff] at hlt
  have hlen5 : z.length = bP.length + 5 := by
    rw [hlen]; simp [be32]
  obtain ⟨r, hzr, hrlen⟩ := byte_between_split bP (0 :: be32 0)
    (0 :: be32 4294967295) z hge hlt (by simp [be32]; omega)
  have hrlen5 : r.length = 5 := by
    rw [hrlen]; simp [be32]
  obtain ⟨r0, rr, rfl⟩ : ∃ r0 rr, r = r0 :: rr := by
    cases r with
    | nil => simp at hrlen5
    | cons a b => exact ⟨a, b, rfl⟩
  have hr0 : r0 = 0 ∧ byteCmp rr (be32 4294967295) = .lt := by
    rw [hzr, byteCmp_append_same] at hlt
    simp only [byteCmp] at hlt
    by_cases h1 : r0 < 0
    · omega
    · by_cases h2 : 0 < r0
      · rw [if_neg h1, if_pos h2] at hlt; cases hlt
      · rw [if_neg h1, if_neg h2] at hlt
        exact ⟨by omega, hlt⟩
  obtain ⟨c0, c1, c2, c3, rfl⟩ : ∃ c0 c1 c2 c3, rr = [c0, c1, c2, c3] := by
    cases rr with
    | nil => simp at hrlen5
    | cons a1 t1 =>
      cases t1 with
      | nil => simp at hrlen5
      | cons a2 t2 =>
        cases t2 with
        | nil => simp at hrlen5
        | cons a3 t3 =>
          cases t3 with
          | nil => simp at hrlen5
          | cons a4 t4 =>
            cases t4 with
            | nil => exact ⟨a1, a2, a3, a4, rfl⟩
            | cons a5 t5 => simp at hrlen5
  subst hzr
  obtain ⟨hr00, -⟩ := hr0
  subst hr00
  -- decode the found row two ways
  have hdec1 : decodePath (bP ++ (0 :: [c0, c1, c2, c3])) = some q :=
    decode_encode q _ hql hqe
  set v := c0 * 16777216 + c1 * 65536 + c2 * 256 + c3 with hv
  have hdec2 : decodePath (bP ++ (0 :: [c0, c1, c2, c3]))
      = some (P ++ [Seg.num v]) := by
    have hPlen := encodePath_length_le P bP hbP
    have hlen2 : (bP ++ (0 :: [c0, c1, c2, c3])).length + 1
        = P.length + (bP.length + 6 - P.length) := by
      simp; omega
    unfold decodePath
    rw [hlen2, decodeSegs_append P bP hP hbP (bP.length + 6 - P.length)
      (0 :: [c0, c1, c2, c3])]
    obtain ⟨g, hg⟩ : ∃ g, bP.length + 6 - P.length = g + 2 := ⟨bP.length + 4 - P.length, by omega⟩
    rw [hg]
    have e : (0 : Nat) :: [c0, c1, c2, c3] = [0, c0, c1, c2, c3] := rfl
    rw [e, decodeSegs_single_num g c0 c1 c2 c3]
    rfl
  rw [hdec1] at hdec2
  simp only [Option.some.injEq] at hdec2
  have hvleg : v < 4294967295 := by
    rw [hdec2] at hql
    simp only [legalPath, List.all_append, List.all_cons, List.all_nil,
      Bool.and_eq_true, legalSeg, decide_eq_true_eq] at hql
    exact hql.2.1
  refine ⟨v, hvleg, ?_, ?_⟩
  · rw [← hdec2]; exact hqe
  · simp only [rowExists, List.any_eq_true]
    exact ⟨row, hrow, by simp [hfst]⟩

/-- C5: over any store whose rows encode legal paths, if the direct numeric
children (at legal indices) of an array prefix `P` are exactly
`{0, …, n−1}`, the length computation returns `n` (in particular `0` when
there is no numeric child).  The store may contain arbitrary other rows —
string-keyed children (which start with tag byte `0x01`, above the range)
and deeper descendants (whose encoded paths are longer, excluded by the
`LENGTH` filter) are never selected. -/
theorem c5_array_length (store : Store) (P : Path) (n : Nat)
    (hP : legalPath P = true) (hn : n ≤ 4294967295)
    (hq : ∀ r ∈ store, ∃ q, legalPath q = true ∧ encodePath q = some r.1)
    (hdense : ∀ i, i < 4294967295 → ∀ bi,
      encodePath (P ++ [Seg.num i]) = some bi →
      (rowExists store bi = true ↔ i < n)) :
    arrayLength store P = some n := by
  obtain ⟨bP, hbP⟩ := encodePath_some_of_legal P hP
  have hlo := encodePath_num_child P bP hbP 0
  have hhi := encodePath_num_child P bP hbP 4294967295
  simp only [arrayLength, hlo, hhi, lengthQuery]
  -- membership in the store for every index below n
  have hmem : ∀ i, i < n →
      (bP ++ (0 :: be32 i)) ∈
        (store.map Prod.fst).filter
          (selectsLen (bP ++ (0 :: be32 0)) (bP ++ (0 :: be32 4294967295))) := by
    intro i hin
    have hileg : i < 4294967295 := by omega
    have hie := encodePath_num_child P bP hbP i
    have hex : rowExists store (bP ++ (0 :: be32 i)) = true :=
      (hdense i hileg _ hie).2 hin
    simp only [rowExists, List.any_eq_true, beq_iff_eq] at hex
    obtain ⟨row, hrow, hfst⟩ := hex
    refine List.mem_filter.2 ⟨List.mem_map.2 ⟨row, hrow, hfst⟩, ?_⟩
    simp only [selectsLen, Bool.and_eq_true, beq_iff_eq]
    refine ⟨⟨by simp [be32], ?_⟩, ?_⟩
    · rw [byteLe_iff, byteCmp_num_children bP 0 i (by omega) (by omega)]
      have : natCmp 0 i = .lt ∨ natCmp 0 i = .eq := by
        unfold natCmp
        by_cases h0 : 0 < i
        · left; rw [if_pos h0]
        · right; rw [if_neg h0, if_neg (by omega)]
      rcases this with h | h <;> rw [h] <;> simp
    · rw [byteLt_iff, byteCmp_num_children bP i 4294967295 (by omega) (by omega)]
      have : natCmp i 4294967295 = .lt := by
        unfold natCmp; rw [if_pos (by omega)]
      rw [this]
  cases hn0 : n with
  | zero =>
    -- no numeric child: the filtered list is empty
    have hempty : (store.map Prod.fst).filter
        (selectsLen (bP ++ (0 :: be32 0)) (bP ++ (0 :: be32 4294967295))) = [] := by
      rw [List.filter_eq_nil]
      intro z hz hsel
      obtain ⟨i, hileg, hie, hex⟩ := lengthQuery_selected store P bP hP hbP hq z hz hsel
      have := (hdense i hileg _ hie).1 hex
      omega
    rw [hempty]
    rfl
  | succ k =>
    have hk := hmem k (by omega)
    cases hmax : maxRow ((store.map Prod.fst).filter
        (selectsLen (bP ++ (0 :: be32 0)) (bP ++ (0 :: be32 4294967295)))) with
    | none => exact absurd hmax (maxRow_ne_none _ _ hk)
    | some m =>
      obtain ⟨hminl, hub⟩ := maxRow_spec _ m hmax
      obtain ⟨hmp, hmsel⟩ := List.mem_filter.1 hminl
      obtain ⟨j, hjleg, hje, hjex⟩ :=
        lengthQuery_selected store P bP hP hbP hq m hmp hmsel
      have hjn : j < k + 1 := by
        have h0 := (hdense j hjleg _ hje).1 hjex
        omega
      have hmeq : m = bP ++ (0 :: be32 j) := by
        have h2 := encodePath_num_child P bP hbP j
        rw [hje] at h2
        injection h2
      have hjk : j = k := by
        by_cases hlt : j < k
        · exfalso
          have hkub := hub _ hk
          rw [hmeq] at hkub
          rw [byteLt_false_iff] at hkub
          apply hkub
          rw [byteCmp_num_children bP j k (by omega) (by omega)]
          have e : natCmp j k = .lt := by unfold natCmp; rw [if_pos hlt]
          rw [e]
        · omega
      subst hjk
      have hkleg : legalPath (P ++ [Seg.num j]) = true :=
        legalPath_append_num P hP j (by omega)
      have hdecm : decodePath m = some (P ++ [Seg.num j]) :=
        decode_encode _ m hkleg hje
      have hlast : (P ++ [Seg.num j]).getLast? = some (Seg.num j) := by
        simp [List.getLast?_concat]
      simp only [hdecm, hlast]

/-- Witness for `c5_array_length`: the table root as an array with rows at
indices 0 and 1 has length 2. -/
theorem c5_array_length_witness :
    arrayLength [([0, 0, 0, 0, 0], [0]), ([0, 0, 0, 0, 1], [0])] [] = some 2 := by
  apply c5_array_length
  · decide
  · omega
  · intro r hr
    simp only [List.mem_cons, List.not_mem_nil, or_false] at hr
    rcases hr with rfl | rfl
    · exact ⟨[Seg.num 0], by decide, by decide⟩
    · exact ⟨[Seg.num 1], by decide, by decide⟩
  · intro i hi bi hbi
    have e : encodePath ([] ++ [Seg.num i]) = some (0 :: be32 i) := rfl
    rw [e] at hbi
    simp only [Option.some.injEq] at hbi
    subst hbi
    simp only [rowExists, List.any_cons, List.any_nil, Bool.or_eq_true,
      Bool.or_false, beq_iff_eq, be32]
    constructor
    · rintro (h | h) <;>
        (simp only [List.cons.injEq, and_true] at h; omega)
    · intro hin
      have h2 : i = 0 ∨ i = 1 := by omega
      rcases h2 with rfl | rfl
      · left; rfl
      · right; rfl

/-! ### Key normalization (`key` in `src/proxy.ts`)

`key` calls the JavaScript builtin `Number(prop)`.  The builtin is
modelled from the ECMAScript `StringToNumber` grammar (whitespace trim,
empty string → 0, hex/octal/binary literals, signed decimal literals with
optional fraction and exponent, `Infinity`); the model keeps the exact
rational value `mant · 10^exp10` instead of rounding to an IEEE double —
rounding cannot move a value across the `isSafeInteger`/`< 2^32 − 1`
bounds checked by `key` for the integral literals of interest. -/

/-- The result of `Number(string)`: NaN, a signed infinity, or the exact
value `mant * 10 ^ exp10`. -/
inductive JsNum where
  | nan
  | inf (neg : Bool)
  | val (mant : Int) (exp10 : Int)
deriving DecidableEq, Repr

/-- ECMAScript `StrWhiteSpaceChar` (the common members). -/
def isWsUnit (c : Nat) : Bool :=
  c = 0x09 || c = 0x0A || c = 0x0B || c = 0x0C || c = 0x0D || c = 0x20
    || c = 0xA0 || c = 0x2028 || c = 0x2029 || c = 0xFEFF

/-- ASCII decimal digit code unit. -/
def isDigitUnit (c : Nat) : Bool := 0x30 ≤ c && c ≤ 0x39

/-- Hexadecimal digit value of a code unit. -/
def hexVal (c : Nat) : Option Nat :=
  if 0x30 ≤ c ∧ c ≤ 0x39 then some (c - 0x30)
  else if 0x41 ≤ c ∧ c ≤ 0x46 then some (c - 0x41 + 10)
  else if 0x61 ≤ c ∧ c ≤ 0x66 then some (c - 0x61 + 10)
  else none

/-- Octal digit value of a code unit. -/
def octVal (c : Nat) : Option Nat :=
  if 0x30 ≤ c ∧ c ≤ 0x37 then some (c - 0x30) else none

/-- Binary digit value of a code unit. -/
def binVal (c : Nat) : Option Nat :=
  if 0x30 ≤ c ∧ c ≤ 0x31 then some (c - 0x30) else none

/-- Maximal run of decimal digits: the digits and the rest. -/
def takeDigits (u : List Nat) : List Nat × List Nat :=
  (u.takeWhile isDigitUnit, u.dropWhile isDigitUnit)

/-- Value of a run of decimal digits. -/
def digitsVal (ds : List Nat) : Nat :=
  ds.foldl (fun acc c => acc * 10 + (c - 0x30)) 0

/-- Value of a run of digits in the given radix; `none` on an illegal
digit. -/
def radixGo (dv : Nat → Option Nat) (radix acc : Nat) : List Nat → Option Nat
  | [] => some acc
  | c :: rest =>
    match dv c with
    | none => none
    | some d => radixGo dv radix (acc * radix + d) rest

/-- The code units of `"Infinity"`. -/
def infinityUnits : List Nat := [0x49, 0x6E, 0x66, 0x69, 0x6E, 0x69, 0x74, 0x79]

/-- `StrUnsignedDecimalLiteral`: digits, optional `.` fraction, optional
exponent; returns the digit mantissa and the power-of-ten exponent. -/
def parseDec (v : List Nat) : Option (Nat × Int) :=
  let ipr := takeDigits v
  let fpr :=
    match ipr.2 with
    | 0x2E :: t => takeDigits t
    | _ => ([], ipr.2)
  if ipr.1 = [] ∧ fpr.1 = [] then none
  else
    match fpr.2 with
    | [] => some (digitsVal (ipr.1 ++ fpr.1), 0 - (fpr.1.length : Int))
    | e :: t =>
      if e = 0x65 ∨ e = 0x45 then
        let st :=
          match t with
          | 0x2B :: r => (false, r)
          | 0x2D :: r => (true, r)
          | _ => (false, t)
        let edr := takeDigits st.2
        if edr.1 = [] ∨ edr.2 ≠ [] then none
        else
          let ev : Int :=
            if st.1 then -(digitsVal edr.1 : Int) else (digitsVal edr.1 : Int)
          some (digitsVal (ipr.1 ++ fpr.1), ev - (fpr.1.length : Int))
      else none

/-- A signed decimal literal or `Infinity`. -/
def decSigned (u : List Nat) : JsNum :=
  let sv :=
    match u with
    | 0x2B :: r => (false, r)
    | 0x2D :: r => (true, r)
    | _ => (false, u)
  if sv.2 = infinityUnits then .inf sv.1
  else
    match parseDec sv.2 with
    | none => .nan
    | some me =>
      .val (if sv.1 then -(me.1 : Int) else (me.1 : Int)) me.2

/-- A radix-prefixed literal (`0x…`, `0o…`, `0b…`); at least one digit,
consuming the whole string. -/
def radixCase (dv : Nat → Option Nat) (radix : Nat) (rest : List Nat) : JsNum :=
  match rest with
  | [] => .nan
  | _ =>
    match radixGo dv radix 0 rest with
    | none => .nan
    | some v => .val (v : Int) 0

/-- Model of the JavaScript builtin `Number(string)` (ECMAScript
`StringToNumber`), with exact rational semantics. -/
def jsStringToNumber (u0 : List Nat) : JsNum :=
  let u := ((u0.dropWhile isWsUnit).reverse.dropWhile isWsUnit).reverse
  match u with
  | [] => .val 0 0
  | 0x30 :: x :: rest =>
    if x = 0x78 ∨ x = 0x58 then radixCase hexVal 16 rest
    else if x = 0x6F ∨ x = 0x4F then radixCase octVal 8 rest
    else if x = 0x62 ∨ x = 0x42 then radixCase binVal 2 rest
    else decSigned u
  | _ => decSigned u

/-- `Number.isSafeInteger(x) && x >= 0` for the exact value of a `JsNum`,
returning the integer when those checks pass. -/
def jsNumToSafeNonneg : JsNum → Option Nat
  | .val m e =>
    if m = 0 then some 0
    else if 0 ≤ e then
      if e > 16 then none
      else
        let v : Int := m * (10 : Int) ^ e.toNat
        if 0 ≤ v ∧ v ≤ 9007199254740991 then some v.toNat else none
    else
      let d : Int := (10 : Int) ^ (-e).toNat
      if m % d = 0 then
        let v := m / d
        if 0 ≤ v ∧ v ≤ 9007199254740991 then some v.toNat else none
      else none
  | _ => none

/-- `key` (`src/proxy.ts`): `const index = Number(prop)`; when
`Number.isSafeInteger(index) && index >= 0 && index < 0xffff_ffff` the
number segment, otherwise the string segment. -/
def keyNorm (u : List Nat) : Seg :=
  match jsNumToSafeNonneg (jsStringToNumber u) with
  | some n => if n < 0xFFFFFFFF then .num n else .str u
  | none => .str u

example : keyNorm [] = Seg.num 0 := by decide
example : keyNorm [0x31, 0x65, 0x33] = Seg.num 1000 := by decide
example : keyNorm [0x30, 0x78, 0x31, 0x30] = Seg.num 16 := by decide
example : keyNorm [0x78] = Seg.str [0x78] := by decide
example : keyNorm [0x6C, 0x65, 0x6E, 0x67, 0x74, 0x68]
    = Seg.str [0x6C, 0x65, 0x6E, 0x67, 0x74, 0x68] := by decide
example : keyNorm [0x34, 0x32, 0x39, 0x34, 0x39, 0x36, 0x37, 0x32, 0x39, 0x35]
    = Seg.str [0x34, 0x32, 0x39, 0x34, 0x39, 0x36, 0x37, 0x32, 0x39, 0x35] := by
  decide

/-- C10: key normalization maps every string whose `Number(...)` value is a
non-negative safe integer below `2^32 − 1` to that number segment,
including non-canonical numerals: `""` (code units `[]`) normalizes to the
number segment 0, `"1e3"` to 1000 and `"0x10"` to 16; hence a write under
key `""` produces the same encoded row path as a write under key `"0"`,
and decoding the stored path yields the numeric segment 0 (so enumeration
reports the numeric key, not the original string `""`). -/
theorem c10_key_normalization :
    (∀ (u : List Nat) (n : Nat),
      jsNumToSafeNonneg (jsStringToNumber u) = some n → n < 0xFFFFFFFF →
      keyNorm u = Seg.num n)
    ∧ keyNorm [] = Seg.num 0
    ∧ keyNorm [0x31, 0x65, 0x33] = Seg.num 1000
    ∧ keyNorm [0x30, 0x78, 0x31, 0x30] = Seg.num 16
    ∧ keyNorm [0x30] = Seg.num 0
    ∧ encodePath [keyNorm []] = encodePath [keyNorm [0x30]]
    ∧ encodePath [keyNorm []] = some [0, 0, 0, 0, 0]
    ∧ decodePath [0, 0, 0, 0, 0] = some [Seg.num 0]
    ∧ ([] : List Nat) ≠ [0x30] := by
  refine ⟨?_, by decide, by decide, by decide, by decide, by decide,
    by decide, by decide, by decide⟩
  intro u n h hn
  simp [keyNorm, h, hn]

/-- Witness for `c10_key_normalization` at the concrete key `"1e3"`. -/
theorem c10_key_normalization_witness :
    keyNorm [0x31, 0x65, 0x33] = Seg.num 1000 :=
  c10_key_normalization.1 [0x31, 0x65, 0x33] 1000 (by decide) (by decide)

/-! ### Scalar codec (`encodeScalar` / `decodeScalar`, `src/encoding.ts`) -/

/-- `Scalar` (`src/index.ts`): null, boolean, number (an IEEE-754 double,
modelled by its 64-bit pattern — the codec only moves its bytes), string,
bigint (arbitrary integer), Date (modelled by the bit pattern of its
millisecond time value, also stored through `setFloat64`), RegExp (source
pattern and flags as code units). -/
inductive Scalar where
  | null
  | bool (b : Bool)
  | num (bits : Nat)
  | str (u : List Nat)
  | bigint (i : Int)
  | date (bits : Nat)
  | regexp (pattern flags : List Nat)
deriving DecidableEq, Repr

/-- Big-endian bytes of `setFloat64`: the eight bytes of the 64-bit
pattern. -/
def be64 (n : Nat) : Bytes :=
  [n / 72057594037927936 % 256, n / 281474976710656 % 256,
    n / 1099511627776 % 256, n / 4294967296 % 256, n / 16777216 % 256,
    n / 65536 % 256, n / 256 % 256, n % 256]

/-- The 64-bit pattern read by `getFloat64` from eight bytes. -/
def dec64 (b0 b1 b2 b3 b4 b5 b6 b7 : Nat) : Nat :=
  b0 * 72057594037927936 + b1 * 281474976710656 + b2 * 1099511627776
    + b3 * 4294967296 + b4 * 16777216 + b5 * 65536 + b6 * 256 + b7

/-- Decimal code units of a natural number (`Number.prototype.toString`
digits). -/
def natToDecUnits (n : Nat) : List Nat := (Nat.toDigits 10 n).map Char.toNat

/-- `BigInt.prototype.toString`: optional minus sign and decimal digits. -/
def intToDecUnits (i : Int) : List Nat :=
  if i < 0 then 0x2D :: natToDecUnits i.natAbs else natToDecUnits i.toNat

/-- `RegExp.prototype.toString`: `"/" + source + "/" + flags` (the escaping
of `/` inside the source is not modelled; it only widens the mismatch shown
in `c3_regexp_roundtrip_fails`). -/
def regexpToString (pattern flags : List Nat) : List Nat :=
  0x2F :: pattern ++ 0x2F :: flags

/-- Model of the ECMAScript `StringToBigInt` on the decimal strings
produced by `BigInt.prototype.toString` (optional sign, decimal digits;
the empty string is `0n`; `none` models the `SyntaxError` of the builtin
on other inputs). -/
def parseBigInt (u : List Nat) : Option Int :=
  match u with
  | [] => some 0
  | 0x2D :: rest =>
    match rest with
    | [] => none
    | _ =>
      (radixGo (fun c => if 0x30 ≤ c ∧ c ≤ 0x39 then some (c - 0x30) else none)
        10 0 rest).map (fun n => -(n : Int))
  | _ =>
    (radixGo (fun c => if 0x30 ≤ c ∧ c ≤ 0x39 then some (c - 0x30) else none)
      10 0 u).map (fun n => (n : Int))

/-- `encodeScalar` (`src/encoding.ts`): tag byte then body; `none` models
the `RangeError` for a code unit `≥ 0xFFFE`.  `null` is a one-byte zeroed
buffer (the NULL tag). -/
def encodeScalar : Scalar → Option Bytes
  | .null => some [0]
  | .bool b => some [if b then 1 else 2]
  | .num bits => some (3 :: be64 bits)
  | .str u => (encodeString u).map (fun bs => 4 :: bs)
  | .bigint i => (encodeString (intToDecUnits i)).map (fun bs => 5 :: bs)
  | .date bits => some (6 :: be64 bits)
  | .regexp pattern flags =>
    (encodeString (regexpToString pattern flags)).map (fun bs => 7 :: bs)

/-- `decodeScalar` (`src/encoding.ts`): dispatch on the tag byte.  The
REGEXP case is `new RegExp(s)` on the stored string: the whole stored
string (including the slashes and flags of the original `toString`)
becomes the pattern and the flags are empty.  `none` models the
`RangeError ("Unknown data type")` on an unknown tag and the
`RangeError` of out-of-bounds reads. -/
def decodeScalar (b : Bytes) : Option Scalar :=
  match b with
  | [] => none
  | t :: rest =>
    if t = 0 then some .null
    else if t = 1 then some (.bool true)
    else if t = 2 then some (.bool false)
    else if t = 3 then
      match rest with
      | b0 :: b1 :: b2 :: b3 :: b4 :: b5 :: b6 :: b7 :: _ =>
        some (.num (dec64 b0 b1 b2 b3 b4 b5 b6 b7))
      | _ => none
    else if t = 4 then
      match decodeUnits rest with
      | some ur => some (.str ur.1)
      | none => none
    else if t = 5 then
      match decodeUnits rest with
      | some ur =>
        match parseBigInt ur.1 with
        | some i => some (.bigint i)
        | none => none
      | none => none
    else if t = 6 then
      match rest with
      | b0 :: b1 :: b2 :: b3 :: b4 :: b5 :: b6 :: b7 :: _ =>
        some (.date (dec64 b0 b1 b2 b3 b4 b5 b6 b7))
      | _ => none
    else if t = 7 then
      match decodeUnits rest with
      | some ur => some (.regexp ur.1 [])
      | none => none
    else none

example : decodeScalar ((encodeScalar (Scalar.num 4614256656552045848)).getD [])
    = some (Scalar.num 4614256656552045848) := by decide
example : decodeScalar ((encodeScalar (Scalar.bigint (-255))).getD [])
    = some (Scalar.bigint (-255)) := by decide

/-- C3 (code bug): scalar round-trip fails for every regular expression.
`encodeScalar` stores `value.toString()` (`"/pattern/flags"`) but
`decodeScalar` rebuilds the value as `new RegExp(storedString)`, which
treats the whole slashed string as the pattern and leaves the flags empty;
for `/a/i` the decoded value has pattern `"/a/i"` and no flags instead of
pattern `"a"` with flag `"i"`.  The repo's own test (`deepEqual` on a
record containing `hex: /0x[a-z0-9]+/i`) compares source and flags and
fails on this. -/
theorem c3_regexp_roundtrip_fails :
    encodeScalar (Scalar.regexp [0x61] [0x69])
      = some [7, 0, 0x2F, 0, 0x61, 0, 0x2F, 0, 0x69]
    ∧ decodeScalar [7, 0, 0x2F, 0, 0x61, 0, 0x2F, 0, 0x69]
      = some (Scalar.regexp [0x2F, 0x61, 0x2F, 0x69] [])
    ∧ Scalar.regexp [0x2F, 0x61, 0x2F, 0x69] [] ≠ Scalar.regexp [0x61] [0x69] := by
  decide

/-! ### `has` (`src/proxy.ts`) -/

/-- The code units of `"length"`. -/
def lengthUnits : List Nat := [0x6C, 0x65, 0x6E, 0x67, 0x74, 0x68]

/-- Modelled from ECMAScript: own keys reachable through
`Reflect.has(Array.prototype, prop)` (a representative subset of the
builtin's method names; the real prototype chain has more, which only
produces more spurious `true` answers). -/
def arrayProtoKeys : List (List Nat) :=
  [[0x6C, 0x65, 0x6E, 0x67, 0x74, 0x68],
    [0x70, 0x75, 0x73, 0x68],
    [0x70, 0x6F, 0x70],
    [0x6D, 0x61, 0x70],
    [0x66, 0x69, 0x6C, 0x74, 0x65, 0x72],
    [0x73, 0x6C, 0x69, 0x63, 0x65],
    [0x63, 0x6F, 0x6E, 0x63, 0x61, 0x74],
    [0x66, 0x6F, 0x72, 0x45, 0x61, 0x63, 0x68]]

/-- `Reflect.has(Array.prototype, prop)`. -/
def arrayProtoHas (u : List Nat) : Bool := arrayProtoKeys.any (· == u)

/-- Existence of an own property descriptor (`getOwnPropertyDescriptor`,
`src/proxy.ts`): for an array handle the `"length"` key always yields a
descriptor (value 0 when no row); otherwise a descriptor exists iff the
point lookup at `encodePath(prefix ++ [key prop])` finds a row.  `none`
models the `RangeError` thrown while encoding an illegal key. -/
def ownDescExists (store : Store) (isArr : Bool) (pfx : Path)
    (prop : List Nat) : Option Bool :=
  if isArr && prop == lengthUnits then some true
  else
    match encodePath (pfx ++ [keyNorm prop]) with
    | none => none
    | some enc => some (rowExists store enc)

/-- The `has` trap (`src/proxy.ts`): true when an own descriptor exists,
otherwise the prototype-chain fallback — `Reflect.has(Array.prototype, ·)`
for array handles, `false` for record handles (null prototype). -/
def hasProp (store : Store) (isArr : Bool) (pfx : Path)
    (prop : List Nat) : Option Bool :=
  match ownDescExists store isArr pfx prop with
  | none => none
  | some true => some true
  | some false => some (if isArr then arrayProtoHas prop else false)

/-- C8 counterexample: on an array handle over an *empty* store, the key
`"push"` reports present (through the `Array.prototype` fallback of the
`has` trap) although no row exists at its encoded path and it is not the
synthetic `"length"` key. -/
theorem c8_counterexample :
    hasProp [] true [] [0x70, 0x75, 0x73, 0x68] = some true
    ∧ rowExists []
        ((encodePath [keyNorm [0x70, 0x75, 0x73, 0x68]]).getD []) = false
    ∧ [0x70, 0x75, 0x73, 0x68] ≠ lengthUnits := by decide

/-- C8 (amended): for every store, handle and encodable key, `has` returns
true iff a row exists at `encodePath(prefix ++ [key prop])`, **or** the
handle is an array handle and the key is the synthetic `"length"` or an
`Array.prototype` member (the prototype-chain fallback).  For record
handles (null prototype) the row-existence equivalence is exact. -/
theorem c8_has_characterization (store : Store) (isArr : Bool) (pfx : Path)
    (prop : List Nat) (enc : Bytes)
    (henc : encodePath (pfx ++ [keyNorm prop]) = some enc) :
    hasProp store isArr pfx prop
      = some (rowExists store enc
          || (isArr && (prop == lengthUnits || arrayProtoHas prop))) := by
  by_cases hb : (isArr && prop == lengthUnits) = true
  · have hb' := hb
    simp only [Bool.and_eq_true] at hb'
    simp [hasProp, ownDescExists, hb, hb'.1, hb'.2]
  · have hbf : (isArr && prop == lengthUnits) = false := by
      cases hx : (isArr && prop == lengthUnits) with
      | false => rfl
      | true => exact absurd hx hb
    cases hre : rowExists store enc with
    | true => simp [hasProp, ownDescExists, hbf, henc, hre]
    | false =>
      cases hia : isArr with
      | false => simp [hasProp, ownDescExists, hbf, henc, hre, hia]
      | true =>
        have hpl : (prop == lengthUnits) = false := by
          rw [hia] at hbf
          simpa using hbf
        simp [hasProp, ownDescExists, hbf, henc, hre, hia, hpl]

/-- Witness for `c8_has_characterization` on a record handle and key
`"a"` over the empty store. -/
theorem c8_has_characterization_witness :
    hasProp [] false [] [0x61]
      = some (rowExists [] [1, 0, 0x61, 0xFF, 0xFE]
          || (false && ([0x61] == lengthUnits || arrayProtoHas [0x61]))) :=
  c8_has_characterization [] false [] [0x61] [1, 0, 0x61, 0xFF, 0xFE]
    (by decide)

/-! ### The write algorithm (`defineProperty` / `set` traps, `src/proxy.ts`)

The source object graph being written is a table of nodes (`List GNode`)
with values referring to composites by node index — this represents
JavaScript object *identity*, which the `WeakSet` cycle guard keys on.
The SQLite connection is a `DB`: the committed rows plus an optional open
transaction's working copy; statements act on the active store, `BEGIN`
copies the committed rows, `ROLLBACK` discards the copy and `COMMIT`
promotes it. -/

/-- A JavaScript value appearing in a write: a scalar, a reference to a
composite node of the source graph, or an unsupported object (function,
class instance, …). -/
inductive JVal where
  | scalar (s : Scalar)
  | node (id : Nat)
  | unsupported
deriving DecidableEq, Repr

/-- A composite node of the source graph: an array of values or a plain
record with string keys. -/
inductive GNode where
  | arrOf (elems : List JVal)
  | recOf (fields : List (List Nat × JVal))
deriving Repr

/-- `Array.isArray` on a composite node. -/
def GNode.isArr : GNode → Bool
  | .arrOf _ => true
  | .recOf _ => false

/-- `Object.entries(value)`: for arrays the dense indices as decimal
strings paired with the elements, for records the own enumerable fields
in insertion order. -/
def GNode.entries : GNode → List (List Nat × JVal)
  | .arrOf es => es.enum.map (fun p => (natToDecUnits p.1, p.2))
  | .recOf fs => fs

/-- The SQLite connection: committed rows and the optional open
transaction's working copy. -/
structure DB where
  committed : Store
  tx : Option Store
deriving DecidableEq, Repr

/-- The store statements act on: the transaction copy when one is open,
the committed rows otherwise (autocommit). -/
def DB.active (db : DB) : Store := db.tx.getD db.committed

/-- Writing back the store a statement produced. -/
def DB.setActive (db : DB) (s : Store) : DB :=
  match db.tx with
  | some _ => ⟨db.committed, some s⟩
  | none => ⟨s, none⟩

/-- `BEGIN`: errors (`none`) when a transaction is already open. -/
def dbBegin (db : DB) : Option DB :=
  match db.tx with
  | some _ => none
  | none => some ⟨db.committed, some db.committed⟩

/-- `ROLLBACK`: discard the working copy. -/
def dbRollback (db : DB) : DB := ⟨db.committed, none⟩

/-- `COMMIT`: promote the working copy. -/
def dbCommit (db : DB) : DB :=
  match db.tx with
  | some s => ⟨s, none⟩
  | none => db

/-- `DELETE FROM t WHERE path >= :lower AND path < :upper`. -/
def deleteRange (s : Store) (lower upper : Bytes) : Store :=
  s.filter (fun r => !(byteLe lower r.1 && byteLt r.1 upper))

/-- `INSERT INTO t (path, value) VALUES (:path, :value)`: primary-key
conflict (`none`) when a row with this path exists. -/
def insertRow (s : Store) (p v : Bytes) : Option Store :=
  if rowExists s p then none else some (s ++ [(p, v)])

/-- The errors the write algorithm can raise. -/
inductive Err where
  | unsupportedType
  | invalidCodeUnit
  | invalidArrayLength
  | cycle
  | uniqueConstraint
  | nestedTx
  | noFuel
deriving DecidableEq, Repr

/-- `Number.isSafeInteger(x) && x >= 0` for an IEEE-754 double given by
its 64-bit pattern, returning the integer. -/
def floatSafeNonneg (bits : Nat) : Option Nat :=
  let sign := bits / 9223372036854775808
  let ex := bits / 4503599627370496 % 2048
  let frac := bits % 4503599627370496
  if ex = 0 then
    if frac = 0 then some 0 else none
  else if ex = 2047 then none
  else if ex < 1023 then none
  else
    let e := ex - 1023
    if e > 52 then none
    else if sign ≠ 0 then none
    else
      let denom := 2 ^ (52 - e)
      if (4503599627370496 + frac) % denom = 0 then
        some ((4503599627370496 + frac) / denom)
      else none

/-- `Number(value)` followed by the `isSafeInteger`/non-negativity checks
of the array-`length` branch.  The `ToPrimitive` coercion of composites
(e.g. `Number([5]) = 5`) is not modelled: assigning a composite as a
length is treated as invalid here. -/
def jsToLengthIndex : JVal → Option Nat
  | .scalar .null => some 0
  | .scalar (.bool b) => some (if b then 1 else 0)
  | .scalar (.num bits) => floatSafeNonneg bits
  | .scalar (.str u) => jsNumToSafeNonneg (jsStringToNumber u)
  | .scalar (.bigint i) =>
    if 0 ≤ i ∧ i ≤ 9007199254740991 then some i.toNat else none
  | .scalar (.date bits) => floatSafeNonneg bits
  | .scalar (.regexp _ _) => none
  | .node _ => none
  | .unsupported => none

/-- The tasks of the write recursion: `prop` is the `defineProperty`
trap entered through `set` (with `v = none` modelling an `undefined`
value routed to `deleteProperty`), `body` is the inside of its `try`
block after the range deletion, `fields` is the `Object.entries` loop
over a composite's children. -/
inductive WTask where
  | prop (isArr : Bool) (pfx : Path) (k : List Nat) (v : Option JVal)
  | body (isArr : Bool) (pfx : Path) (k : List Nat) (value : JVal) (enc : Bytes)
  | fields (isArr : Bool) (pfx : Path) (entries : List (List Nat × JVal))

/-- The write algorithm of `src/proxy.ts` (`defineProperty`, `set`,
`deleteProperty`), with fuel for the recursion over the source graph (the
real code's termination relies on the cycle guard; exhausted fuel surfaces
as the artificial error `noFuel`).  The third component of the state is
the target's `CYCLES` weak set (`none` when no write is in progress). -/
def writeGo (g : List GNode) : Nat → WTask → DB → Option (List Nat) →
    DB × Option (List Nat) × Option Err
  | 0, _, db, cyc => (db, cyc, some .noFuel)
  | fuel + 1, .prop isArr pfx k v, db, cyc =>
    match v with
    | none =>
      -- deleteProperty: array "length" refuses (returns false), otherwise
      -- one autocommitted range deletion
      if isArr && k == lengthUnits then (db, cyc, none)
      else
        match encodePath (pfx ++ [keyNorm k]) with
        | none => (db, cyc, some .invalidCodeUnit)
        | some enc =>
          (db.setActive (deleteRange db.active enc (increment enc)), cyc, none)
    | some value =>
      match encodePath (pfx ++ [keyNorm k]) with
      | none => (db, cyc, some .invalidCodeUnit)
      | some enc =>
        match cyc with
        | none =>
          -- top-level write: BEGIN, wipe the subtree range, run the body;
          -- on error ROLLBACK and re-raise, else COMMIT; the finally
          -- clause clears the target's CYCLES either way
          match dbBegin db with
          | none => (dbRollback db, none, some .nestedTx)
          | some db0 =>
            let db1 := db0.setActive (deleteRange db0.active enc (increment enc))
            match writeGo g fuel (.body isArr pfx k value enc) db1 none with
            | (db2, _, some e) => (dbRollback db2, none, some e)
            | (db2, _, none) => (dbCommit db2, none, none)
        | some c => writeGo g fuel (.body isArr pfx k value enc) db (some c)
  | fuel + 1, .body isArr pfx k value enc, db, cyc =>
    if isArr && k == lengthUnits then
      -- array-length assignment: validate, truncate, write no row
      match jsToLengthIndex value with
      | none => (db, cyc, some .invalidArrayLength)
      | some len =>
        if len < 4294967295 then
          match encodePath (pfx ++ [Seg.num len]),
              encodePath (pfx ++ [Seg.num 4294967295]) with
          | some lo, some hi =>
            (db.setActive (deleteRange db.active lo hi), cyc, none)
          | _, _ => (db, cyc, some .invalidCodeUnit)
        else (db, cyc, some .invalidArrayLength)
    else
      match value with
      | .scalar s =>
        match encodeScalar s with
        | none => (db, cyc, some .invalidCodeUnit)
        | some bytes =>
          match insertRow db.active enc bytes with
          | none => (db, cyc, some .uniqueConstraint)
          | some st => (db.setActive st, cyc, none)
      | .unsupported => (db, cyc, some .unsupportedType)
      | .node id =>
        match g[id]? with
        | none => (db, cyc, some .unsupportedType)
        | some gn =>
          -- cycle guard: seed a fresh set at top level, otherwise fail on a
          -- known identity and add the new one (never removed afterwards)
          match
            (match cyc with
              | none => some [id]
              | some c => if id ∈ c then none else some (id :: c)) with
          | none => (db, cyc, some .cycle)
          | some c1 =>
            match insertRow db.active enc
                (encodeComplex (if gn.isArr then .array else .record)) with
            | none => (db, some c1, some .uniqueConstraint)
            | some st =>
              writeGo g fuel (.fields gn.isArr (pfx ++ [keyNorm k]) gn.entries)
                (db.setActive st) (some c1)
  | fuel + 1, .fields isArr pfx entries, db, cyc =>
    match entries with
    | [] => (db, cyc, none)
    | (k, v) :: rest =>
      match writeGo g fuel (.prop isArr pfx k (some v)) db cyc with
      | (db2, c2, some e) => (db2, c2, some e)
      | (db2, c2, none) => writeGo g fuel (.fields isArr pfx rest) db2 c2

lemma DB.setActive_spec (db : DB) (s : Store) (h : db.tx.isSome = true) :
    (db.setActive s).committed = db.committed
    ∧ (db.setActive s).tx.isSome = true := by
  obtain ⟨cm, tx⟩ := db
  cases tx with
  | none => simp at h
  | some t => exact ⟨rfl, rfl⟩

/-- The cycle set only grows during a write (nothing is ever removed from
the `WeakSet`). -/
lemma writeGo_cyc_mono : ∀ (g : List GNode) (fuel : Nat) (task : WTask)
    (db : DB) (c : List Nat),
    ∃ c2, (writeGo g fuel task db (some c)).2.1 = some c2 ∧ ∀ x ∈ c, x ∈ c2 := by
  intro g fuel
  induction fuel with
  | zero => intro task db c; exact ⟨c, rfl, fun x hx => hx⟩
  | succ f ih =>
    intro task db c
    cases task with
    | prop isArr pfx k v =>
      cases v with
      | none =>
        simp only [writeGo]
        split
        · exact ⟨c, rfl, fun x hx => hx⟩
        · split
          · exact ⟨c, rfl, fun x hx => hx⟩
          · exact ⟨c, rfl, fun x hx => hx⟩
      | some value =>
        simp only [writeGo]
        split
        · exact ⟨c, rfl, fun x hx => hx⟩
        · exact ih (.body isArr pfx k value _) db c
    | body isArr pfx k value enc =>
      simp only [writeGo]
      split
      · -- length branch
        split
        · exact ⟨c, rfl, fun x hx => hx⟩
        · split
          · split
            · exact ⟨c, rfl, fun x hx => hx⟩
            · exact ⟨c, rfl, fun x hx => hx⟩
          · exact ⟨c, rfl, fun x hx => hx⟩
      · -- value branches
        split
        · -- scalar
          split
          · exact ⟨c, rfl, fun x hx => hx⟩
          · split
            · exact ⟨c, rfl, fun x hx => hx⟩
            · exact ⟨c, rfl, fun x hx => hx⟩
        · -- unsupported
          exact ⟨c, rfl, fun x hx => hx⟩
        · -- node id
          rename_i id
          split
          · exact ⟨c, rfl, fun x hx => hx⟩
          · rename_i gn hg
            by_cases hid : id ∈ c
            · simp only [if_pos hid]
              exact ⟨c, rfl, fun x hx => hx⟩
            · simp only [if_neg hid]
              split
              · exact ⟨id :: c, rfl, fun x hx => List.mem_cons_of_mem _ hx⟩
              · obtain ⟨c2, hc2, hsub⟩ := ih
                  (.fields gn.isArr (pfx ++ [keyNorm k]) gn.entries)
                  (db.setActive _) (id :: c)
                exact ⟨c2, hc2,
                  fun x hx => hsub x (List.mem_cons_of_mem _ hx)⟩
    | fields isArr pfx entries =>
      cases entries with
      | nil => exact ⟨c, rfl, fun x hx => hx⟩
      | cons kv rest =>
        obtain ⟨k, v⟩ := kv
        simp only [writeGo]
        rcases hchild : writeGo g f (.prop isArr pfx k (some v)) db (some c)
          with ⟨db2, c2o, r⟩
        obtain ⟨c2, hc2, hsub⟩ := ih (.prop isArr pfx k (some v)) db c
        rw [hchild] at hc2
        simp only at hc2
        subst hc2
        cases r with
        | some e => exact ⟨c2, rfl, hsub⟩
        | none =>
          obtain ⟨c3, hc3, hsub3⟩ := ih (.fields isArr pfx rest) db2 c2
          exact ⟨c3, hc3, fun x hx => hsub3 x (hsub x hx)⟩

/-- Which tasks require an already-seeded cycle set for the state
invariants (the `body` task handles the top-level seeding itself). -/
def cycOkFor : WTask → Option (List Nat) → Prop
  | .body _ _ _ _ _, _ => True
  | _, cyc => cyc.isSome = true

/-- While a transaction is open, the write recursion (below the top-level
wrapper) never touches the committed rows and never closes the
transaction: statements only modify the transaction's working copy. -/
lemma writeGo_preserves : ∀ (g : List GNode) (fuel : Nat) (task : WTask)
    (db : DB) (cyc : Option (List Nat)),
    db.tx.isSome = true → cycOkFor task cyc →
    (writeGo g fuel task db cyc).1.committed = db.committed
    ∧ (writeGo g fuel task db cyc).1.tx.isSome = true := by
  intro g fuel
  induction fuel with
  | zero => intro task db cyc htx _; exact ⟨rfl, htx⟩
  | succ f ih =>
    intro task db cyc htx hcy
    cases task with
    | prop isArr pfx k v =>
      have hsome : cyc.isSome = true := hcy
      obtain ⟨c, rfl⟩ : ∃ c, cyc = some c := by
        cases cyc with
        | none => simp at hsome
        | some c => exact ⟨c, rfl⟩
      cases v with
      | none =>
        simp only [writeGo]
        split
        · exact ⟨rfl, htx⟩
        · split
          · exact ⟨rfl, htx⟩
          · exact DB.setActive_spec db _ htx
      | some value =>
        simp only [writeGo]
        split
        · exact ⟨rfl, htx⟩
        · exact ih (.body isArr pfx k value _) db (some c) htx trivial
    | body isArr pfx k value enc =>
      simp only [writeGo]
      split
      · split
        · exact ⟨rfl, htx⟩
        · split
          · split
            · exact DB.setActive_spec db _ htx
            · exact ⟨rfl, htx⟩
          · exact ⟨rfl, htx⟩
      · split
        · -- scalar
          split
          · exact ⟨rfl, htx⟩
          · split
            · exact ⟨rfl, htx⟩
            · exact DB.setActive_spec db _ htx
        · -- unsupported
          exact ⟨rfl, htx⟩
        · -- node id
          rename_i id
          split
          · exact ⟨rfl, htx⟩
          · rename_i gn hg
            split
            · exact ⟨rfl, htx⟩
            · rename_i c1 hguard
              split
              · exact ⟨rfl, htx⟩
              · rename_i st hins
                obtain ⟨hsa1, hsa2⟩ := DB.setActive_spec db st htx
                obtain ⟨h1, h2⟩ := ih
                  (.fields gn.isArr (pfx ++ [keyNorm k]) gn.entries)
                  (db.setActive st) (some c1) hsa2 rfl
                exact ⟨h1.trans hsa1, h2⟩
    | fields isArr pfx entries =>
      have hsome : cyc.isSome = true := hcy
      obtain ⟨c, rfl⟩ : ∃ c, cyc = some c := by
        cases cyc with
        | none => simp at hsome
        | some c => exact ⟨c, rfl⟩
      cases entries with
      | nil => exact ⟨rfl, htx⟩
      | cons kv rest =>
        obtain ⟨k, v⟩ := kv
        simp only [writeGo]
        rcases hchild : writeGo g f (.prop isArr pfx k (some v)) db (some c)
          with ⟨db2, c2o, r⟩
        obtain ⟨hp1, hp2⟩ := ih (.prop isArr pfx k (some v)) db (some c) htx rfl
        rw [hchild] at hp1 hp2
        simp only at hp1 hp2
        obtain ⟨c2, hc2, -⟩ := writeGo_cyc_mono g f (.prop isArr pfx k (some v)) db c
        rw [hchild] at hc2
        simp only at hc2
        subst hc2
        cases r with
        | some e => exact ⟨hp1, hp2⟩
        | none =>
          obtain ⟨h1, h2⟩ := ih (.fields isArr pfx rest) db2 (some c2) hp2 rfl
          exact ⟨h1.trans hp1, h2⟩

/-- C4: if a top-level write (outermost `set` or `delete`, entered with no
open transaction and no active cycle set) raises any error — encoding,
validation, cycle, primary-key conflict or exhausted recursion, including
errors raised while recursively writing a child of a composite — then the
committed row set afterwards is exactly the row set before the write
began, and no transaction is left open: errors raised before `BEGIN`
mutate nothing, and errors raised inside the transaction propagate to the
top-level `catch`, which rolls back. -/
theorem c4_toplevel_error_rollback (g : List GNode) (fuel : Nat)
    (isArr : Bool) (pfx : Path) (k : List Nat) (v : Option JVal) (db : DB)
    (e : Err) (htx : db.tx = none)
    (herr : (writeGo g fuel (.prop isArr pfx k v) db none).2.2 = some e) :
    (writeGo g fuel (.prop isArr pfx k v) db none).1.committed = db.committed
    ∧ (writeGo g fuel (.prop isArr pfx k v) db none).1.tx = none := by
  cases fuel with
  | zero => exact ⟨rfl, htx⟩
  | succ f =>
    cases v with
    | none =>
      by_cases hlen : (isArr && k == lengthUnits) = true
      · simp only [writeGo, if_pos hlen] at herr
        exact Option.noConfusion herr
      · cases henc : encodePath (pfx ++ [keyNorm k]) with
        | none =>
          simp only [writeGo, if_neg hlen, henc]
          exact ⟨by trivial, htx⟩
        | some enc =>
          simp only [writeGo, if_neg hlen, henc] at herr
          exact Option.noConfusion herr
    | some value =>
      cases henc : encodePath (pfx ++ [keyNorm k]) with
      | none =>
        simp only [writeGo, henc]
        exact ⟨by trivial, htx⟩
      | some enc =>
        have hbeg : dbBegin db = some ⟨db.committed, some db.committed⟩ := by
          unfold dbBegin
          rw [htx]
        rcases hbody : writeGo g f (.body isArr pfx k value enc)
            ⟨db.committed, some (deleteRange db.committed enc (increment enc))⟩
            none with ⟨db2, c2, r⟩
        have hpres := writeGo_preserves g f (.body isArr pfx k value enc)
            ⟨db.committed, some (deleteRange db.committed enc (increment enc))⟩
            none rfl trivial
        rw [hbody] at hpres
        simp only at hpres
        simp only [writeGo, henc, hbeg, DB.setActive, DB.active, Option.getD,
          hbody] at herr ⊢
        cases r with
        | none => exact absurd herr (by simp)
        | some e2 => exact ⟨hpres.1, rfl⟩

/-- Witness for `c4_toplevel_error_rollback`: writing the string scalar
with the illegal code unit `0xFFFF` under key `"a"` raises the encoding
error after `BEGIN` and the range deletion; the pre-existing committed row
survives untouched and the transaction is closed. -/
theorem c4_toplevel_error_rollback_witness :
    (writeGo [] 5
        (.prop false [] [0x61] (some (.scalar (.str [0xFFFF]))))
        ⟨[([0], [0])], none⟩ none).1.committed = [([0], [0])]
    ∧ (writeGo [] 5
        (.prop false [] [0x61] (some (.scalar (.str [0xFFFF]))))
        ⟨[([0], [0])], none⟩ none).1.tx = none :=
  c4_toplevel_error_rollback [] 5 false [] [0x61]
    (some (.scalar (.str [0xFFFF]))) ⟨[([0], [0])], none⟩
    Err.invalidCodeUnit rfl (by decide)

lemma byteLe_refl (p : Bytes) : byteLe p p = true := by
  rw [byteLe_iff, (byteCmp_eq_iff p p).2 rfl]
  intro h
  cases h

lemma rowExists_deleteRange (s : Store) (lower upper p : Bytes)
    (h1 : byteLe lower p = true) (h2 : byteLt p upper = true) :
    rowExists (deleteRange s lower upper) p = false := by
  cases hx : rowExists (deleteRange s lower upper) p with
  | false => rfl
  | true =>
    exfalso
    simp only [rowExists, List.any_eq_true] at hx
    obtain ⟨r, hr, hrp⟩ := hx
    unfold deleteRange at hr
    rw [List.mem_filter] at hr
    obtain ⟨-, hkeep⟩ := hr
    simp only [beq_iff_eq] at hrp
    rw [hrp] at hkeep
    rw [h1, h2] at hkeep
    simp at hkeep

/-- One unfolding of the top-level `defineProperty` wrapper: `BEGIN`, the
range deletion, then the body, with rollback or commit on its outcome. -/
lemma writeGo_top_step (g : List GNode) (fuel : Nat) (isArr : Bool)
    (pfx : Path) (k : List Nat) (value : JVal) (enc : Bytes) (db : DB)
    (htx : db.tx = none)
    (henc : encodePath (pfx ++ [keyNorm k]) = some enc) :
    writeGo g (fuel + 1) (.prop isArr pfx k (some value)) db none
      = (match writeGo g fuel (.body isArr pfx k value enc)
            ⟨db.committed, some (deleteRange db.committed enc (increment enc))⟩
            none with
        | (db2, _, some e) => (dbRollback db2, none, some e)
        | (db2, _, none) => (dbCommit db2, none, none)) := by
  have hbeg : dbBegin db = some ⟨db.committed, some db.committed⟩ := by
    unfold dbBegin
    rw [htx]
  simp only [writeGo, henc, hbeg, DB.setActive, DB.active, Option.getD]

/-- One unfolding of the body for a composite value whose guard and marker
insertion succeed: recurse over the entries. -/
lemma writeGo_body_node_step (g : List GNode) (fuel : Nat) (isArr : Bool)
    (pfx : Path) (k : List Nat) (id : Nat) (gn : GNode) (enc : Bytes)
    (db : DB) (cyc : Option (List Nat)) (c1 : List Nat) (st : Store)
    (hnl : (isArr && k == lengthUnits) = false)
    (hg : g[id]? = some gn)
    (hguard : (match cyc with
      | none => some [id]
      | some c => if id ∈ c then none else some (id :: c)) = some c1)
    (hins : insertRow db.active enc
      (encodeComplex (if gn.isArr then .array else .record)) = some st) :
    writeGo g (fuel + 1) (.body isArr pfx k (.node id) enc) db cyc
      = writeGo g fuel (.fields gn.isArr (pfx ++ [keyNorm k]) gn.entries)
          (db.setActive st) (some c1) := by
  simp only [writeGo, hnl, hg, hguard, hins, Bool.false_eq_true, if_false]

/-- One unfolding of the entries loop when the first child write
succeeds. -/
lemma writeGo_fields_cons_ok (g : List GNode) (fuel : Nat) (isArr : Bool)
    (pfx : Path) (k : List Nat) (v : JVal)
    (rest : List (List Nat × JVal)) (db db2 : DB)
    (cyc c2 : Option (List Nat))
    (hchild : writeGo g fuel (.prop isArr pfx k (some v)) db cyc
      = (db2, c2, none)) :
    writeGo g (fuel + 1) (.fields isArr pfx ((k, v) :: rest)) db cyc
      = writeGo g fuel (.fields isArr pfx rest) db2 c2 := by
  simp only [writeGo, hchild]

/-- One unfolding of the entries loop when the first child write fails:
the error propagates immediately. -/
lemma writeGo_fields_cons_err (g : List GNode) (fuel : Nat) (isArr : Bool)
    (pfx : Path) (k : List Nat) (v : JVal)
    (rest : List (List Nat × JVal)) (db db2 : DB)
    (cyc c2 : Option (List Nat)) (e : Err)
    (hchild : writeGo g fuel (.prop isArr pfx k (some v)) db cyc
      = (db2, c2, some e)) :
    writeGo g (fuel + 1) (.fields isArr pfx ((k, v) :: rest)) db cyc
      = (db2, c2, some e) := by
  simp only [writeGo, hchild]

/-- Writing a composite whose identity is already in the cycle set raises
the Cycle error without touching the state. -/
lemma writeGo_prop_cycle (g : List GNode) (fuel : Nat) (isArr : Bool)
    (pfx : Path) (k : List Nat) (id : Nat) (gn : GNode) (db : DB)
    (c : List Nat) (enc : Bytes)
    (hg : g[id]? = some gn) (hid : id ∈ c)
    (hnl : (isArr && k == lengthUnits) = false)
    (henc : encodePath (pfx ++ [keyNorm k]) = some enc) :
    writeGo g (fuel + 2) (.prop isArr pfx k (some (.node id))) db (some c)
      = (db, some c, some Err.cycle) := by
  simp only [writeGo, henc, hnl, hg, hid, Bool.false_eq_true, if_false,
    if_true]

/-- A composite write that returned without error has recorded the
composite's identity in the cycle set (and never removes it). -/
lemma writeGo_prop_node_adds (g : List GNode) (fuel : Nat) (isArr : Bool)
    (pfx : Path) (k : List Nat) (id : Nat) (gn : GNode) (db : DB)
    (c : List Nat) (db' : DB) (c2o : Option (List Nat))
    (hg : g[id]? = some gn)
    (hrun : writeGo g (fuel + 2) (.prop isArr pfx k (some (.node id))) db
      (some c) = (db', c2o, none)) :
    ∃ c2, c2o = some c2 ∧ id ∈ c2 := by
  cases henc : encodePath (pfx ++ [keyNorm k]) with
  | none =>
    simp only [writeGo, henc] at hrun
    simp at hrun
  | some enc =>
    simp only [writeGo, henc] at hrun
    by_cases hnl : (isArr && k == lengthUnits) = true
    · simp only [hnl, if_true, jsToLengthIndex] at hrun
      simp at hrun
    · have hnl2 : (isArr && k == lengthUnits) = false := by
        cases hv : (isArr && k == lengthUnits) with
        | false => rfl
        | true => exact absurd hv hnl
      simp only [hnl2, Bool.false_eq_true, if_false, hg] at hrun
      by_cases hid : id ∈ c
      · simp only [hid, if_true] at hrun
        simp at hrun
      · simp only [hid, if_false] at hrun
        cases hins : insertRow db.active enc
            (encodeComplex (if gn.isArr then .array else .record)) with
        | none =>
          simp only [hins] at hrun
          simp at hrun
        | some st =>
          simp only [hins] at hrun
          obtain ⟨c2, hc2, hsub⟩ := writeGo_cyc_mono g fuel
            (.fields gn.isArr (pfx ++ [keyNorm k]) gn.entries)
            (db.setActive st) (id :: c)
          rw [hrun] at hc2
          simp only at hc2
          exact ⟨c2, hc2, hsub id (List.mem_cons_self _ _)⟩

/-- C9: a top-level set of an acyclic source graph in which one and the
same composite `a` (by identity) is reachable at two different positions —
here the record `{x: a, y: a}` — fails with the Cycle error and is rolled
back: the guard adds every composite to the identity set before recursing
and never removes it, so when the `y` field is reached, `a` is already in
the set.  Hypotheses: the write targets an encodable key whose encoded
range is non-degenerate (`byteLt enc (increment enc)`), and the `x`
subtree write itself succeeds (its call and outcome are named explicitly
by `hx`). -/
theorem c9_shared_composite_cycle (g : List GNode) (rid a : Nat)
    (gna : GNode) (fuel : Nat) (isArr : Bool) (pfx : Path) (k : List Nat)
    (db : DB) (enc : Bytes) (dbx : DB) (cxo : Option (List Nat))
    (hroot : g[rid]? = some (GNode.recOf
      [([0x78], JVal.node a), ([0x79], JVal.node a)]))
    (hga : g[a]? = some gna)
    (htx : db.tx = none)
    (hnl : (isArr && k == lengthUnits) = false)
    (henc : encodePath (pfx ++ [keyNorm k]) = some enc)
    (hgood : byteLt enc (increment enc) = true)
    (hx : writeGo g (fuel + 3)
        (.prop false (pfx ++ [keyNorm k]) [0x78] (some (JVal.node a)))
        ⟨db.committed, some (deleteRange db.committed enc (increment enc)
          ++ [(enc, encodeComplex .record)])⟩ (some [rid])
      = (dbx, cxo, none)) :
    writeGo g (fuel + 6) (.prop isArr pfx k (some (JVal.node rid))) db none
      = (⟨db.committed, none⟩, none, some Err.cycle) := by
  -- the x write records `a` in the cycle set
  have hx' := hx
  have e31 : fuel + 3 = (fuel + 1) + 2 := by omega
  rw [e31] at hx'
  obtain ⟨cx, rfl, hmem⟩ := writeGo_prop_node_adds g (fuel + 1) false
    (pfx ++ [keyNorm k]) [0x78] a gna
    ⟨db.committed, some (deleteRange db.committed enc (increment enc)
      ++ [(enc, encodeComplex .record)])⟩ [rid] dbx cxo hga hx'
  -- the x write preserves the committed rows
  have hpres := writeGo_preserves g (fuel + 3)
    (.prop false (pfx ++ [keyNorm k]) [0x78] (some (JVal.node a)))
    ⟨db.committed, some (deleteRange db.committed enc (increment enc)
      ++ [(enc, encodeComplex .record)])⟩ (some [rid]) rfl rfl
  rw [hx] at hpres
  simp only at hpres
  -- the y write hits the guard
  have hency : encodePath ((pfx ++ [keyNorm k]) ++ [keyNorm [0x79]])
      = some (enc ++ [1, 0, 0x79, 0xFF, 0xFE]) := by
    have h1 : encodePath [keyNorm [0x79]] = some [1, 0, 0x79, 0xFF, 0xFE] := by
      decide
    exact encodePath_append _ _ _ _ henc h1
  have hy := writeGo_prop_cycle g fuel false (pfx ++ [keyNorm k]) [0x79] a
    gna dbx cx (enc ++ [1, 0, 0x79, 0xFF, 0xFE]) hga hmem rfl hency
  -- the entries loop: x succeeds, y raises Cycle
  have hflds : writeGo g (fuel + 4)
      (.fields false (pfx ++ [keyNorm k])
        [([0x78], JVal.node a), ([0x79], JVal.node a)])
      ⟨db.committed, some (deleteRange db.committed enc (increment enc)
        ++ [(enc, encodeComplex .record)])⟩ (some [rid])
      = (dbx, some cx, some Err.cycle) := by
    have e4 : fuel + 4 = (fuel + 3) + 1 := by omega
    rw [e4, writeGo_fields_cons_ok g (fuel + 3) false (pfx ++ [keyNorm k])
      [0x78] (JVal.node a) _ _ dbx (some [rid]) (some cx) hx]
    have e3 : fuel + 3 = (fuel + 2) + 1 := by omega
    rw [e3, writeGo_fields_cons_err g (fuel + 2) false (pfx ++ [keyNorm k])
      [0x79] (JVal.node a) [] dbx dbx (some cx) (some cx) Err.cycle hy]
  -- the marker insertion after the top-level range deletion succeeds
  have hins : insertRow
      (DB.active ⟨db.committed,
        some (deleteRange db.committed enc (increment enc))⟩) enc
      (encodeComplex (if (GNode.recOf
        [([0x78], JVal.node a), ([0x79], JVal.node a)]).isArr
        then .array else .record))
      = some (deleteRange db.committed enc (increment enc)
          ++ [(enc, encodeComplex .record)]) := by
    unfold insertRow
    rw [show rowExists
        (DB.active ⟨db.committed,
          some (deleteRange db.committed enc (increment enc))⟩) enc = false
      from rowExists_deleteRange db.committed enc (increment enc) enc
        (byteLe_refl enc) hgood]
    rfl
  -- assemble the whole top-level write
  have hstep1 := writeGo_top_step g (fuel + 5) isArr pfx k (JVal.node rid)
    enc db htx henc
  have hstep2 := writeGo_body_node_step g (fuel + 4) isArr pfx k rid
    (GNode.recOf [([0x78], JVal.node a), ([0x79], JVal.node a)]) enc
    ⟨db.committed, some (deleteRange db.committed enc (increment enc))⟩
    none [rid]
    (deleteRange db.committed enc (increment enc)
      ++ [(enc, encodeComplex .record)])
    hnl hroot rfl hins
  have e6 : fuel + 6 = (fuel + 5) + 1 := by omega
  rw [e6, hstep1]
  have e5 : fuel + 5 = (fuel + 4) + 1 := by omega
  rw [e5, hstep2]
  simp only [GNode.isArr, GNode.entries, DB.setActive]
  rw [hflds]
  simp [dbRollback, hpres.1]

/-- Witness for C9: a two-node graph where the root record has fields
x and y both pointing at the same empty record, written at key "p"
of an empty database, raises Cycle and leaves the database unchanged. -/
theorem c9_shared_composite_cycle_witness :
    writeGo
      [GNode.recOf [([0x78], JVal.node 1), ([0x79], JVal.node 1)],
       GNode.recOf []]
      6 (.prop false [] [0x70] (some (JVal.node 0))) ⟨[], none⟩ none
      = (⟨[], none⟩, none, some Err.cycle) :=
  c9_shared_composite_cycle
    [GNode.recOf [([0x78], JVal.node 1), ([0x79], JVal.node 1)],
     GNode.recOf []]
    0 1 (GNode.recOf []) 0 false [] [0x70] ⟨[], none⟩
    [1, 0, 112, 255, 254]
    ⟨[], some [([1, 0, 112, 255, 254], [254]),
      ([1, 0, 112, 255, 254, 1, 0, 120, 255, 254], [254])]⟩
    (some [1, 0])
    rfl rfl rfl rfl (by decide) (by decide) (by decide)

end Eslite
